import Mathlib

/-!
# Permutation test (`permtest.go`): shallow embedding and verified properties

The Go program is embedded as follows.

* The floating-point code is embedded twice.
  - Over IEEE 754 binary64 (`F64`, and the functions whose names end in `64`): this is the
    program as it runs.  Every operation rounds to nearest, ties to even, with gradual
    underflow and overflow to infinity.
  - In exact arithmetic (`sum`, `mean`, `binom`, `countBigger`, `permTestCounters`,
    `permTest`, `median`): the same statements, evaluated without rounding.  Sums of
    input numbers stay in `ℚ`; the result of a division is an `FVal`, which is either a
    finite rational, one of the two infinities, or NaN, so that division by zero behaves as
    it does in Go (it never panics).  This evaluation is the reference for statements made
    "in exact arithmetic" and for properties that do not depend on rounding; it is not the
    behaviour of the program on every input, and the last section records runs of the
    binary64 program that differ from it.
  - `mode` performs no arithmetic on its numbers, only equality tests; they are taken in `ℚ`.
* `int` values that are lengths, indices or combination entries are `Nat`; the requested
  iteration count `nIter` is an `Int`, because the command line may supply a negative value.
* A Go run-time panic is an `Except.error` carrying a `Panic`.
* The closures `emit` / `countBigger`, which mutate captured counters, become explicit
  state-passing functions.
* The global random source is a stream `rnd : Nat → Nat` together with a position; the
  `p`-th call `rand.Intn(k)` returns `rnd p % k` for `k > 0` and panics otherwise, so every
  sequence of in-range draws is produced by some stream.
-/

namespace PermTest

/-! ## Data model -/

/-- Run-time panics the program can raise. -/
inductive Panic where
  | indexOutOfRange
  | integerDivideByZero
  | intnInvalidArgument
  deriving DecidableEq, Repr

/-- A `float64` in exact arithmetic: a finite rational, an infinity, or NaN.  No rounding. -/
inductive FVal where
  | fin (q : ℚ)
  | posInf
  | negInf
  | nan
  deriving DecidableEq, Repr

/-- Floating-point division of two finite numbers: `x / 0` is `±Inf` and `0 / 0` is NaN. -/
def FVal.div (x y : ℚ) : FVal :=
  if y = 0 then (if x = 0 then .nan else if 0 < x then .posInf else .negInf)
  else .fin (x / y)

/-- Floating-point subtraction. -/
def FVal.sub : FVal → FVal → FVal
  | .fin a, .fin b => .fin (a - b)
  | .nan, _ => .nan
  | _, .nan => .nan
  | .posInf, .posInf => .nan
  | .negInf, .negInf => .nan
  | .posInf, _ => .posInf
  | .negInf, _ => .negInf
  | .fin _, .posInf => .negInf
  | .fin _, .negInf => .posInf

/-- Absolute value, `math.Abs`. -/
def FVal.abs : FVal → FVal
  | .fin a => .fin |a|
  | .posInf => .posInf
  | .negInf => .posInf
  | .nan => .nan

/-- The comparison `x >= y` on floats: false as soon as one side is NaN. -/
def FVal.ge : FVal → FVal → Bool
  | .nan, _ => false
  | _, .nan => false
  | .fin a, .fin b => decide (b ≤ a)
  | .posInf, _ => true
  | _, .negInf => true
  | .negInf, _ => false
  | .fin _, .posInf => false

/-- The counters captured by the closure `countBigger`. -/
structure Counters where
  numTrials : Nat
  numBigger : Nat
  deriving DecidableEq, Repr

/-! ## Small helpers of `permtest.go` -/

/-- `sum(nums)` evaluated in exact arithmetic: left-to-right accumulation starting from 0.
The binary64 function is `sum64`. -/
def sum (nums : List ℚ) : ℚ :=
  nums.foldl (fun acc n => acc + n) 0

/-- `mean(nums)` evaluated in exact arithmetic: the sum divided by `float64(len(nums))`; NaN
on the empty list.  The binary64 function is `mean64`. -/
def mean (nums : List ℚ) : FVal :=
  FVal.div (nums.foldl (fun acc f => acc + f) 0) (nums.length : ℚ)

/-- `min(x, y)` on ints. -/
def min (x y : Nat) : Nat :=
  if x < y then x else y

/-! ## `binom` -/

/-- The loop of `binom`: `for i := big+small; i > big; i-- { res *= i/s; s-- }`, evaluated in
exact arithmetic.  The first argument counts the remaining iterations `i - big`.  The
binary64 function is `binomLoop64`. -/
def binomLoop (big : Nat) : Nat → Nat → Nat → ℚ → ℚ
  | 0, _, _, res => res
  | k + 1, i, s, res => binomLoop big k (i - 1) (s - 1) (res * ((i : ℚ) / (s : ℚ)))

/-- `binom(n, m)` evaluated in exact arithmetic.  The binary64 function is `binom64`. -/
def binom (n m : Nat) : ℚ :=
  let big := if n > m then n else m
  let small := if n > m then m else n
  binomLoop big small (big + small) small 1

/-! ## `allCombs` -/

/-- The recursive closure `rc(i, next)` of `allCombs`, with `s` and the state threaded
through `emit` made explicit.  The loop `for j := next; j < n; j++` runs `cnt = n - next`
times, which is the structurally decreasing argument; `last = m - 1`, so `i == last` is
`i + 1 = m`.  The write `s[i] = j` panics when `i` is not an index of `s`. -/
def rc {σ : Type} (m : Nat) (emit : List Nat → σ → Except Panic σ) :
    Nat → Nat → Nat → List Nat × σ → Except Panic (List Nat × σ)
  | 0, _, _, st => .ok st
  | cnt + 1, i, j, (s, acc) =>
    if i < s.length then
      let s1 := s.set i j
      let r : Except Panic (List Nat × σ) :=
        if i + 1 = m then
          match emit s1 acc with
          | .ok acc1 => .ok (s1, acc1)
          | .error e => .error e
        else rc m emit cnt (i + 1) (j + 1) (s1, acc)
      match r with
      | .ok st1 => rc m emit cnt i (j + 1) st1
      | .error e => .error e
    else .error .indexOutOfRange

/-- `allCombs(n, m, emit)`: `s := make([]int, m)`, then `rc(0, 0)`.  Returns the final
state of whatever `emit` accumulates. -/
def allCombs {σ : Type} (n m : Nat) (emit : List Nat → σ → Except Panic σ) (init : σ) :
    Except Panic σ :=
  match rc m emit n 0 0 (List.replicate m 0, init) with
  | .ok st => .ok st.2
  | .error e => .error e

/-- An `emit` callback that records a snapshot of every buffer it receives. -/
def snapshot (c : List Nat) (log : List (List Nat)) : Except Panic (List (List Nat)) :=
  .ok (log ++ [c])

/-! ## `randComb` -/

/-- The state of the loop of `randComb`: the set `S` (as the list of its keys), the
buffer `c`, and the position in the random stream. -/
structure RandState where
  S : List Nat
  c : List Nat
  pos : Nat
  deriving DecidableEq, Repr

/-- The call `rand.Intn(k)` at position `pos` of the random stream: it panics when
`k <= 0` and otherwise returns a value in `[0, k)`. -/
def intn (rnd : Nat → Nat) (pos : Nat) (k : Int) : Except Panic Nat :=
  if k ≤ 0 then .error .intnInvalidArgument else .ok (rnd pos % k.toNat)

/-- One iteration of the loop of `randComb` at index `j`: `t := rand.Intn(j + 1)`, then
`x = t` when `!S[t]` and `x = j` otherwise (`j >= 0` once `rand.Intn` has returned), then the
write `c[len(S)] = x`, which panics when `len(S)` is not an index of `c`, then `S[x] = true`.
`len(S)` is the number of distinct keys. -/
def randStep (rnd : Nat → Nat) (j : Int) (st : RandState) : Except Panic RandState :=
  match intn rnd st.pos (j + 1) with
  | .error e => .error e
  | .ok t =>
    let x := if ¬ (t ∈ st.S) then t else j.toNat
    if st.S.length < st.c.length then
      .ok { S := if x ∈ st.S then st.S else st.S ++ [x], c := st.c.set st.S.length x,
            pos := st.pos + 1 }
    else .error .indexOutOfRange

/-- The loop `for j := n - m; j < n; j++` of `randComb`, running `cnt` more iterations
from `j`. -/
def randLoop (rnd : Nat → Nat) : Nat → Int → RandState → Except Panic RandState
  | 0, _, st => .ok st
  | cnt + 1, j, st =>
    match randStep rnd j st with
    | .ok st1 => randLoop rnd cnt (j + 1) st1
    | .error e => .error e

/-- `randComb(n, m, emit)`, drawing from the stream `rnd` starting at position `pos`;
returns the state produced by `emit` and the new stream position.  The loop runs from
`j = n - m`, which is negative when `m > n`, and makes `n - (n - m) = m` iterations. -/
def randComb {σ : Type} (rnd : Nat → Nat) (pos : Nat) (n m : Nat)
    (emit : List Nat → σ → Except Panic σ) (init : σ) : Except Panic (σ × Nat) :=
  match randLoop rnd m ((n : Int) - (m : Int)) { S := [], c := List.replicate m 0, pos := pos } with
  | .ok st =>
    match emit st.c init with
    | .ok acc => .ok (acc, st.pos)
    | .error e => .error e
  | .error e => .error e

/-! ## `permTest` -/

/-- The loop `for _, i := range c { sum1 -= both[i]; sum2 += both[i] }` of `countBigger`,
evaluated in exact arithmetic; reading `both[i]` panics when `i` is out of range.  The
binary64 function is `sumLoop64`. -/
def sumLoop (both : List ℚ) : List Nat → ℚ × ℚ → Except Panic (ℚ × ℚ)
  | [], sums => .ok sums
  | i :: c, (sum1, sum2) =>
    match both.get? i with
    | some v => sumLoop both c (sum1 - v, sum2 + v)
    | none => .error .indexOutOfRange

/-- The closure `countBigger` of `permTest`, evaluated in exact arithmetic.  The binary64
function is `countBigger64`. -/
def countBigger (both : List ℚ) (sumBoth : ℚ) (origDiff : FVal) (c : List Nat)
    (st : Counters) : Except Panic Counters :=
  match sumLoop both c (sumBoth, 0) with
  | .ok (sum1, sum2) =>
    let mean1 := FVal.div sum1 (((both.length : Int) - (c.length : Int) : Int) : ℚ)
    let mean2 := FVal.div sum2 (c.length : ℚ)
    .ok { numTrials := st.numTrials + 1,
          numBigger := if FVal.ge (FVal.abs (FVal.sub mean1 mean2)) origDiff
                       then st.numBigger + 1 else st.numBigger }
  | .error e => .error e

/-- The loop `for i := 0; i < nIter; i++ { randComb(...) }` of `permTest`, running `cnt`
more iterations. -/
def randTrials {σ : Type} (rnd : Nat → Nat) (n m : Nat)
    (emit : List Nat → σ → Except Panic σ) : Nat → Nat → σ → Except Panic σ
  | 0, _, acc => .ok acc
  | cnt + 1, pos, acc =>
    match randComb rnd pos n m emit acc with
    | .ok (acc1, pos1) => randTrials rnd n m emit cnt pos1 acc1
    | .error e => .error e

/-- The effective iteration count of `permTest`: `if nIter == 0 { nIter = 3e7 / len(both) }`.
The integer division panics when `both` is empty. -/
def effectiveIter (nIter : Int) (lenBoth : Nat) : Except Panic Int :=
  if nIter = 0 then
    if lenBoth = 0 then .error .integerDivideByZero
    else .ok (((30000000 / lenBoth : Nat) : Int))
  else .ok nIter

/-- The counters at the end of `permTest`, just before the final division, with the
floating-point statements evaluated in exact arithmetic: the mode switch compares the
unrounded value of `binom`.  The binary64 function is `permTestCounters64`. -/
def permTestCounters (rnd : Nat → Nat) (a b : List ℚ) (nIter : Int) : Except Panic Counters :=
  let origDiff := FVal.abs (FVal.sub (mean a) (mean b))
  let both := a ++ b
  let sumBoth := sum both
  let lenSmallerGroup := min a.length b.length
  let nComb := binom a.length b.length
  match effectiveIter nIter both.length with
  | .error e => .error e
  | .ok nIter1 =>
    if nComb ≤ (nIter1 : ℚ) then
      allCombs both.length lenSmallerGroup (countBigger both sumBoth origDiff) ⟨0, 0⟩
    else
      randTrials rnd both.length lenSmallerGroup (countBigger both sumBoth origDiff)
        nIter1.toNat 0 ⟨0, 0⟩

/-- `permTest(a, b, nIter)` with the random stream `rnd`, evaluated in exact arithmetic: the
final value is `float64(numBigger) / float64(numTrials)`.  The binary64 function is
`permTest64`. -/
def permTest (rnd : Nat → Nat) (a b : List ℚ) (nIter : Int) : Except Panic FVal :=
  match permTestCounters rnd a b nIter with
  | .ok st => .ok (FVal.div (st.numBigger : ℚ) (st.numTrials : ℚ))
  | .error e => .error e

/-! ## `median.go` -/

/-- `medianIndices(n)`, the same function in `median.go` and in `permtest.go`; Go's `/` and
`%` on ints truncate toward zero. -/
def medianIndices (n : Int) : Int × Int :=
  if Int.tmod n 2 = 0 then (Int.tdiv (n - 1) 2, Int.tdiv n 2)
  else (Int.tdiv (n - 1) 2, Int.tdiv (n - 1) 2)

/-- The read `nums[i]`, which panics when `i` is not an index of `nums`. -/
def index (nums : List ℚ) (i : Int) : Except Panic ℚ :=
  if 0 ≤ i then
    match nums.get? i.toNat with
    | some v => .ok v
    | none => .error .indexOutOfRange
  else .error .indexOutOfRange

/-- `median(nums)` evaluated in exact arithmetic: `0.5*nums[x] + 0.5*nums[y]` at the indices
given by `medianIndices`.  The binary64 function is `median64`. -/
def median (nums : List ℚ) : Except Panic ℚ :=
  let xy := medianIndices (nums.length : Int)
  match index nums xy.1 with
  | .error e => .error e
  | .ok vx =>
    match index nums xy.2 with
    | .error e => .error e
    | .ok vy => .ok ((1 / 2 : ℚ) * vx + (1 / 2 : ℚ) * vy)

/-- The variables of the loop of `mode`: the current `mode`, the map `count` (an absent
key reads as 0) and `maxCount`. -/
structure ModeState where
  mode : ℚ
  count : ℚ → Int
  maxCount : Int

/-- One iteration of the loop of `mode`: `count[f]++`, then the update of `mode` and
`maxCount` when `count[f] > maxCount`. -/
def modeStep (st : ModeState) (f : ℚ) : ModeState :=
  let count1 := Function.update st.count f (st.count f + 1)
  if count1 f > st.maxCount then { mode := f, count := count1, maxCount := count1 f }
  else { mode := st.mode, count := count1, maxCount := st.maxCount }

/-- `mode(nums)`: a single left-to-right scan starting from `mode = 0`, an empty map and
`maxCount = -1`. -/
def mode (nums : List ℚ) : ℚ :=
  (nums.foldl modeStep { mode := 0, count := fun _ => 0, maxCount := -1 }).mode

/-! ## IEEE 754 binary64 arithmetic

The program computes in `float64`.  The definitions of this section give the binary64
operations it uses, with round-to-nearest, ties-to-even, gradual underflow and overflow to
infinity; they are evaluable, so that a run of the program on concrete numbers can be
replayed.  The sign of zero is not represented (the program never divides by a negative
zero), and the operations are rounded one by one, as on amd64. -/

/-- An IEEE 754 binary64 value.  `fin m e` is the number `m * 2^e`, kept in the canonical
form `|m| < 2^53`, `e ≥ -1074`, and `2^52 ≤ |m|` unless `e = -1074`.  The sign of zero is
not represented. -/
inductive F64 where
  | fin (m : Int) (e : Int)
  | posInf
  | negInf
  | nan
  deriving DecidableEq, Repr

/-- The number of binary digits of `n`, by repeated halving; the first argument bounds the
number of halvings. -/
def F64.bitsAux : Nat → Nat → Nat
  | 0, _ => 0
  | fuel + 1, n => if n = 0 then 0 else F64.bitsAux fuel (n / 2) + 1

/-- The number of binary digits of `n`. -/
def F64.bits (n : Nat) : Nat :=
  F64.bitsAux n n

/-- Round the exact dyadic number `± M * 2^E` to the nearest binary64 value, ties to even,
with gradual underflow and overflow to infinity. -/
def F64.round (neg : Bool) (M : Nat) (E : Int) : F64 :=
  if M = 0 then .fin 0 (-1074)
  else
    let e1 : Int := max (E + (F64.bits M : Int) - 53) (-1074)
    let sh : Int := e1 - E
    let q0 : Nat := if sh ≤ 0 then M * 2 ^ (-sh).toNat else M / 2 ^ sh.toNat
    let r : Nat := if sh ≤ 0 then 0 else M % 2 ^ sh.toNat
    let half : Nat := if sh ≤ 0 then 1 else 2 ^ (sh.toNat - 1)
    let q : Nat := if half < r ∨ (r = half ∧ q0 % 2 = 1) then q0 + 1 else q0
    let m : Nat := if q = 2 ^ 53 then 2 ^ 52 else q
    let e : Int := if q = 2 ^ 53 then e1 + 1 else e1
    if 971 < e then (if neg then .negInf else .posInf)
    else .fin (if neg then -(m : Int) else (m : Int)) e

/-- Round the exact quotient `± (N / D) * 2^E`, `D > 0`, to the nearest binary64 value: the
quotient is cut after more than 110 binary digits and a sticky bit records the remainder. -/
def F64.roundQuot (neg : Bool) (N D : Nat) (E : Int) : F64 :=
  let k : Nat := 110 + F64.bits D
  let Q : Nat := N * 2 ^ k / D
  let sticky : Nat := if N * 2 ^ k % D = 0 then 0 else 1
  F64.round neg (2 * Q + sticky) (E - (k : Int) - 1)

/-- The conversion `float64(n)` of an int. -/
def F64.ofInt (n : Int) : F64 :=
  F64.round (decide (n < 0)) n.natAbs 0

/-- The binary64 value of the decimal literal `num / den`, as `strconv.ParseFloat` reads a
text token: the nearest binary64 value. -/
def F64.ofRatio (num : Int) (den : Nat) : F64 :=
  F64.roundQuot (decide (num < 0)) num.natAbs den 0

/-- Negation. -/
def F64.neg : F64 → F64
  | .fin m e => .fin (-m) e
  | .posInf => .negInf
  | .negInf => .posInf
  | .nan => .nan

/-- The floating-point sum `x + y`. -/
def F64.add : F64 → F64 → F64
  | .fin m1 e1, .fin m2 e2 =>
    let e : Int := if e1 ≤ e2 then e1 else e2
    let M : Int := m1 * ((2 ^ (e1 - e).toNat : Nat) : Int) + m2 * ((2 ^ (e2 - e).toNat : Nat) : Int)
    F64.round (decide (M < 0)) M.natAbs e
  | .nan, _ => .nan
  | _, .nan => .nan
  | .posInf, .negInf => .nan
  | .negInf, .posInf => .nan
  | .posInf, _ => .posInf
  | .negInf, _ => .negInf
  | .fin _ _, .posInf => .posInf
  | .fin _ _, .negInf => .negInf

/-- The floating-point difference `x - y`. -/
def F64.sub (x y : F64) : F64 :=
  F64.add x (F64.neg y)

/-- The floating-point product `x * y`. -/
def F64.mul : F64 → F64 → F64
  | .fin m1 e1, .fin m2 e2 =>
    F64.round (decide (m1 * m2 < 0)) (m1 * m2).natAbs (e1 + e2)
  | .nan, _ => .nan
  | _, .nan => .nan
  | .fin m _, .posInf => if m = 0 then .nan else if 0 < m then .posInf else .negInf
  | .fin m _, .negInf => if m = 0 then .nan else if 0 < m then .negInf else .posInf
  | .posInf, .fin m _ => if m = 0 then .nan else if 0 < m then .posInf else .negInf
  | .negInf, .fin m _ => if m = 0 then .nan else if 0 < m then .negInf else .posInf
  | .posInf, .posInf => .posInf
  | .posInf, .negInf => .negInf
  | .negInf, .posInf => .negInf
  | .negInf, .negInf => .posInf

/-- The floating-point quotient `x / y`; a zero divisor counts as `+0`. -/
def F64.div : F64 → F64 → F64
  | .fin m1 e1, .fin m2 e2 =>
    if m2 = 0 then (if m1 = 0 then .nan else if 0 < m1 then .posInf else .negInf)
    else F64.roundQuot (decide (m1 < 0) != decide (m2 < 0)) m1.natAbs m2.natAbs (e1 - e2)
  | .nan, _ => .nan
  | _, .nan => .nan
  | .fin _ _, .posInf => .fin 0 (-1074)
  | .fin _ _, .negInf => .fin 0 (-1074)
  | .posInf, .fin m _ => if m < 0 then .negInf else .posInf
  | .negInf, .fin m _ => if m < 0 then .posInf else .negInf
  | .posInf, .posInf => .nan
  | .posInf, .negInf => .nan
  | .negInf, .posInf => .nan
  | .negInf, .negInf => .nan

/-- `math.Abs`. -/
def F64.abs : F64 → F64
  | .fin m e => .fin (|m|) e
  | .posInf => .posInf
  | .negInf => .posInf
  | .nan => .nan

/-- The comparison `x <= y`: false as soon as one side is NaN. -/
def F64.le : F64 → F64 → Bool
  | .nan, _ => false
  | _, .nan => false
  | .fin m1 e1, .fin m2 e2 =>
    let e : Int := if e1 ≤ e2 then e1 else e2
    decide (m1 * ((2 ^ (e1 - e).toNat : Nat) : Int) ≤ m2 * ((2 ^ (e2 - e).toNat : Nat) : Int))
  | .negInf, _ => true
  | _, .posInf => true
  | .posInf, _ => false
  | .fin _ _, .negInf => false

/-- The comparison `x >= y`. -/
def F64.ge (x y : F64) : Bool :=
  F64.le y x

/-- The exact rational value of a finite binary64 number (0 for an infinity or NaN). -/
def F64.toRat : F64 → ℚ
  | .fin m e => (m : ℚ) * (2 : ℚ) ^ e
  | _ => 0

/-- Equality of run results can be decided, so that concrete runs can be evaluated. -/
instance decEqExcept {ε α : Type} [DecidableEq ε] [DecidableEq α] : DecidableEq (Except ε α)
  | .ok a, .ok b =>
    if h : a = b then isTrue (by rw [h]) else isFalse (fun h1 => h (Except.ok.inj h1))
  | .error a, .error b =>
    if h : a = b then isTrue (by rw [h]) else isFalse (fun h1 => h (Except.error.inj h1))
  | .ok _, .error _ => isFalse (fun h1 => Except.noConfusion h1)
  | .error _, .ok _ => isFalse (fun h1 => Except.noConfusion h1)

/-! ## `permtest.go` and `median.go` over binary64 -/

/-- `sum(nums)` in binary64: left-to-right accumulation starting from `+0`. -/
def sum64 (nums : List F64) : F64 :=
  nums.foldl (fun acc n => F64.add acc n) (F64.ofInt 0)

/-- `mean(nums)` in binary64. -/
def mean64 (nums : List F64) : F64 :=
  F64.div (nums.foldl (fun acc f => F64.add acc f) (F64.ofInt 0)) (F64.ofInt (nums.length : Int))

/-- The loop of `binom` in binary64: `res *= float64(i) / float64(s)`. -/
def binomLoop64 (big : Nat) : Nat → Nat → Nat → F64 → F64
  | 0, _, _, res => res
  | k + 1, i, s, res =>
    binomLoop64 big k (i - 1) (s - 1)
      (F64.mul res (F64.div (F64.ofInt (i : Int)) (F64.ofInt (s : Int))))

/-- `binom(n, m)` in binary64. -/
def binom64 (n m : Nat) : F64 :=
  let big := if n > m then n else m
  let small := if n > m then m else n
  binomLoop64 big small (big + small) small (F64.ofInt 1)

/-- The loop of `countBigger` in binary64. -/
def sumLoop64 (both : List F64) : List Nat → F64 × F64 → Except Panic (F64 × F64)
  | [], sums => .ok sums
  | i :: c, (sum1, sum2) =>
    match both.get? i with
    | some v => sumLoop64 both c (F64.sub sum1 v, F64.add sum2 v)
    | none => .error .indexOutOfRange

/-- The closure `countBigger` of `permTest` in binary64. -/
def countBigger64 (both : List F64) (sumBoth : F64) (origDiff : F64) (c : List Nat)
    (st : Counters) : Except Panic Counters :=
  match sumLoop64 both c (sumBoth, F64.ofInt 0) with
  | .ok (sum1, sum2) =>
    let mean1 := F64.div sum1 (F64.ofInt ((both.length : Int) - (c.length : Int)))
    let mean2 := F64.div sum2 (F64.ofInt (c.length : Int))
    .ok { numTrials := st.numTrials + 1,
          numBigger := if F64.ge (F64.abs (F64.sub mean1 mean2)) origDiff
                       then st.numBigger + 1 else st.numBigger }
  | .error e => .error e

/-- The counters at the end of `permTest` in binary64, just before the final division. -/
def permTestCounters64 (rnd : Nat → Nat) (a b : List F64) (nIter : Int) :
    Except Panic Counters :=
  let origDiff := F64.abs (F64.sub (mean64 a) (mean64 b))
  let both := a ++ b
  let sumBoth := sum64 both
  let lenSmallerGroup := min a.length b.length
  let nComb := binom64 a.length b.length
  match effectiveIter nIter both.length with
  | .error e => .error e
  | .ok nIter1 =>
    if F64.le nComb (F64.ofInt nIter1) then
      allCombs both.length lenSmallerGroup (countBigger64 both sumBoth origDiff) ⟨0, 0⟩
    else
      randTrials rnd both.length lenSmallerGroup (countBigger64 both sumBoth origDiff)
        nIter1.toNat 0 ⟨0, 0⟩

/-- `permTest(a, b, nIter)` in binary64, with the random stream `rnd`. -/
def permTest64 (rnd : Nat → Nat) (a b : List F64) (nIter : Int) : Except Panic F64 :=
  match permTestCounters64 rnd a b nIter with
  | .ok st => .ok (F64.div (F64.ofInt (st.numBigger : Int)) (F64.ofInt (st.numTrials : Int)))
  | .error e => .error e

/-- The read `nums[i]` on a binary64 slice. -/
def index64 (nums : List F64) (i : Int) : Except Panic F64 :=
  if 0 ≤ i then
    match nums.get? i.toNat with
    | some v => .ok v
    | none => .error .indexOutOfRange
  else .error .indexOutOfRange

/-- `median(nums)` in binary64: `0.5*nums[x] + 0.5*nums[y]`. -/
def median64 (nums : List F64) : Except Panic F64 :=
  let xy := medianIndices (nums.length : Int)
  match index64 nums xy.1 with
  | .error e => .error e
  | .ok vx =>
    match index64 nums xy.2 with
    | .error e => .error e
    | .ok vy => .ok (F64.add (F64.mul (F64.ofRatio 1 2) vx) (F64.mul (F64.ofRatio 1 2) vy))

/-! ## Specification-level objects -/

/-- All strictly ascending lists of length `len` with entries in `[j, j + cnt)`, in
lexicographic order. -/
def combs : Nat → Nat → Nat → List (List Nat)
  | 0, _, _ => [[]]
  | _ + 1, _, 0 => []
  | len + 1, j, cnt + 1 => (combs len (j + 1) cnt).map (fun t => j :: t) ++ combs (len + 1) (j + 1) cnt

/-- Feed the buffers of a list to `emit` one after the other. -/
def emitAll {σ : Type} (emit : List Nat → σ → Except Panic σ) : List (List Nat) → σ → Except Panic σ
  | [], acc => .ok acc
  | c :: L, acc =>
    match emit c acc with
    | .ok acc1 => emitAll emit L acc1
    | .error e => .error e

/-- The keys inserted by the first `k` iterations of the loop of `randComb` that starts at
`j` and reads the random stream from position `pos`, in insertion order. -/
def floyd (rnd : Nat → Nat) (pos j : Nat) : Nat → List Nat
  | 0 => []
  | k + 1 =>
    let S := floyd rnd pos j k
    let t := rnd (pos + k) % (j + k + 1)
    S ++ [if ¬ (t ∈ S) then t else j + k]

/-- The draw vectors `(t_j, ..., t_{j+k-1})` with `t_i ≤ i`: the possible results of the
`k` calls `rand.Intn(i + 1)` made by a loop of `randComb` that starts at `j`. -/
def drawVectors (j : Nat) : Nat → Finset (List Nat)
  | 0 => {[]}
  | k + 1 => ((drawVectors j k) ×ˢ (Finset.range (j + k + 1))).image (fun p => p.1 ++ [p.2])

/-- The random stream that returns the entries of `d` one after the other. -/
def streamOf (d : List Nat) : Nat → Nat :=
  fun p => d.getD p 0

/-- The set of entries of the single buffer that `randComb(n, m, emit)` emits when the
random source yields the draws `d`; `none` when it panics. -/
def emittedSet (n m : Nat) (d : List Nat) : Option (Finset Nat) :=
  match randComb (streamOf d) 0 n m snapshot [] with
  | .ok ([c], _) => some c.toFinset
  | _ => none

/-- The pool elements at the indices in `c`, rebuilt from scratch by a membership test
over all pool indices. -/
def groupIn (both : List ℚ) (c : List Nat) : List ℚ :=
  ((List.range both.length).filter (fun i => i ∈ c)).map (fun i => both.getD i 0)

/-- The pool elements at the indices not in `c`, rebuilt from scratch by a membership test
over all pool indices. -/
def groupOut (both : List ℚ) (c : List Nat) : List ℚ :=
  ((List.range both.length).filter (fun i => ¬ (i ∈ c))).map (fun i => both.getD i 0)

/-- The sum of the pool elements at the indices listed in `c`. -/
def pick (both : List ℚ) (c : List Nat) : ℚ :=
  (c.map (fun i => both.getD i 0)).sum

/-- The test that `countBigger` applies to the buffer `c`, as a function of `c`. -/
def bigger (both : List ℚ) (sumBoth : ℚ) (origDiff : FVal) (c : List Nat) : Bool :=
  FVal.ge (FVal.abs (FVal.sub
    (FVal.div (sumBoth - pick both c) (((both.length : Int) - (c.length : Int) : Int) : ℚ))
    (FVal.div (pick both c) (c.length : ℚ)))) origDiff

/-- The buffers emitted by `cnt` successive calls of `randComb(n, m, emit)` that read the
random stream from position `pos` on. -/
def trialBuffers (rnd : Nat → Nat) (n m : Nat) : Nat → Nat → List (List Nat)
  | 0, _ => []
  | cnt + 1, pos => floyd rnd pos (n - m) m :: trialBuffers rnd n m cnt (pos + m)

/-- The subsets that `permTest` scores, in order, when the effective iteration count is
`E`: all combinations in exact mode, the sampled ones otherwise. -/
def scoredSubsets (rnd : Nat → Nat) (a b : List ℚ) (E : Int) : List (List Nat) :=
  if binom a.length b.length ≤ (E : ℚ) then combs (min a.length b.length) 0 (a ++ b).length
  else trialBuffers rnd (a ++ b).length (min a.length b.length) E.toNat 0

/-- The reference brute-force p-value of the exact test, in exact arithmetic: the number
of `m`-element index subsets `T` of the pool whose re-grouping has a difference of means at
least as large as the observed one, divided by the number `C(|pool|, m)` of such subsets,
where `m` is the size of the smaller group. -/
def bruteForce (a b : List ℚ) : ℚ :=
  let pool := a ++ b
  let n := pool.length
  let m := min a.length b.length
  let observed := |a.sum / (a.length : ℚ) - b.sum / (b.length : ℚ)|
  ((((Finset.range n).powersetCard m).filter (fun T =>
      observed ≤ |(∑ i in T, pool.getD i 0) / (T.card : ℚ)
        - (∑ i in Finset.range n \ T, pool.getD i 0) / ((n - T.card : Nat) : ℚ)|)).card : ℚ)
    / (n.choose m : ℚ)

/-- The index subset that reproduces the original grouping: the pool indices of the
smaller group (those of `b` on a tie). -/
def origSubset (a b : List ℚ) : List Nat :=
  if a.length < b.length then List.range a.length else List.range' a.length b.length

/-- The loop invariant of `mode` after the prefix `P` has been scanned. -/
def ModeInv (P : List ℚ) (st : ModeState) : Prop :=
  (∀ w, st.count w = (P.count w : Int)) ∧
  ((P = [] ∧ st.maxCount = -1) ∨
    (P ≠ [] ∧ 1 ≤ st.maxCount ∧ (∀ w, (P.count w : Int) ≤ st.maxCount) ∧
      ∃ p, p ≤ P.length ∧ (((P.take p).count st.mode : Nat) : Int) = st.maxCount ∧
        ∀ w, w ≠ st.mode → (((P.take p).count w : Nat) : Int) < st.maxCount))

/-- The position in the pool `b ++ a` of the element that sits at position `i` of the pool
`a ++ b`, for `la = |a|` and `lb = |b|`; indices outside the pool are left alone. -/
def swapIdx (la lb i : Nat) : Nat :=
  if i < la then i + lb else if i < la + lb then i - la else i

/-- The test of `countBigger` as a function of the subset sum `s`, for a pool of `n` numbers
with total `sumBoth` and subsets of size `m`. -/
def biggerOfSum (n m : Nat) (sumBoth : ℚ) (origDiff : FVal) (s : ℚ) : Bool :=
  FVal.ge (FVal.abs (FVal.sub
    (FVal.div (sumBoth - s) ((((n : Int) - (m : Int) : Int)) : ℚ))
    (FVal.div s (m : ℚ)))) origDiff

/-! # Theorems -/

/-! ## `binom` computes the binomial coefficient -/

theorem binomLoop_eq (big k : Nat) (res : ℚ) :
    binomLoop big k (big + k) k res = res * ((big + k).choose k : ℚ) := by
  induction k generalizing res with
  | zero => simp [binomLoop]
  | succ k ih =>
    have h1 : big + (k + 1) - 1 = big + k := by omega
    have h2 : k + 1 - 1 = k := by omega
    rw [binomLoop, h1, h2, ih]
    have hk : ((k + 1 : Nat) : ℚ) ≠ 0 := by exact_mod_cast Nat.succ_ne_zero k
    have h3 : ((big + k + 1 : Nat) : ℚ) * ((big + k).choose k : ℚ)
        = ((big + k + 1).choose (k + 1) : ℚ) * ((k + 1 : Nat) : ℚ) := by
      exact_mod_cast Nat.succ_mul_choose_eq (big + k) k
    have h4 : big + (k + 1) = big + k + 1 := by omega
    rw [h4]
    push_cast at h3 hk ⊢
    field_simp
    linear_combination res * h3

theorem binom_eq_choose (n m : Nat) : binom n m = ((n + m).choose m : ℚ) := by
  unfold binom
  by_cases h : n > m
  · simp only [h, if_true]
    rw [binomLoop_eq]; simp
  · simp only [h, if_false]
    rw [binomLoop_eq, one_mul, Nat.add_comm m n, Nat.choose_symm_add]

/-- C5: for all `n, m ≥ 0`, `binom(n, m)` evaluated in exact rational arithmetic is the
binomial coefficient `C(n+m, m) = (n+m)! / (n! m!)`; in particular `binom(0, 0) = 1`. -/
theorem binom_spec (n m : Nat) :
    binom n m = ((n + m).choose m : ℚ) ∧
    binom n m = ((n + m).factorial : ℚ) / ((n.factorial : ℚ) * (m.factorial : ℚ)) ∧
    binom 0 0 = 1 := by
  refine ⟨binom_eq_choose n m, ?_, ?_⟩
  · rw [binom_eq_choose, Nat.add_comm n m, Nat.cast_add_choose, mul_comm]
  · rw [binom_eq_choose]; simp

/-! ## `allCombs` enumerates the combinations in lexicographic order -/

theorem emitAll_append {σ : Type} (emit : List Nat → σ → Except Panic σ) (L1 L2 : List (List Nat))
    (acc : σ) :
    emitAll emit (L1 ++ L2) acc =
      match emitAll emit L1 acc with
      | .ok acc1 => emitAll emit L2 acc1
      | .error e => .error e := by
  induction L1 generalizing acc with
  | nil => simp [emitAll]
  | cons c L1 ih =>
    simp only [List.cons_append, emitAll]
    cases h : emit c acc with
    | ok acc1 => simp [ih]
    | error e => simp

theorem take_set_succ (s : List Nat) (i j : Nat) (h : i < s.length) :
    (s.set i j).take (i + 1) = s.take i ++ [j] := by
  induction s generalizing i with
  | nil => simp at h
  | cons a s ih =>
    cases i with
    | zero => simp
    | succ i =>
      simp only [List.length_cons, Nat.add_lt_add_iff_right] at h
      simp [List.set, ih i h]

theorem take_set_self (s : List Nat) (i j : Nat) :
    (s.set i j).take i = s.take i := by
  induction s generalizing i with
  | nil => simp
  | cons a s ih =>
    cases i with
    | zero => simp
    | succ i => simp [List.set, ih i]

theorem rc_spec {σ : Type} (m : Nat) (emit : List Nat → σ → Except Panic σ) (cnt : Nat) :
    ∀ (i j : Nat) (s : List Nat) (acc : σ), i < m → s.length = m →
      (∀ e, emitAll emit ((combs (m - i) j cnt).map (fun t => s.take i ++ t)) acc = .error e →
          rc m emit cnt i j (s, acc) = .error e) ∧
      (∀ acc1, emitAll emit ((combs (m - i) j cnt).map (fun t => s.take i ++ t)) acc = .ok acc1 →
          ∃ s1, rc m emit cnt i j (s, acc) = .ok (s1, acc1) ∧ s1.length = m ∧
            s1.take i = s.take i) := by
  induction cnt with
  | zero =>
    intro i j s acc him hs
    obtain ⟨d, hd⟩ : ∃ d, m - i = d + 1 := ⟨m - i - 1, by omega⟩
    simp [hd, combs, rc, emitAll, hs]
  | succ cnt ih =>
    intro i j s acc him hs
    obtain ⟨d, hd⟩ : ∃ d, m - i = d + 1 := ⟨m - i - 1, by omega⟩
    have his : i < s.length := by omega
    have hs1 : (s.set i j).length = m := by simp [hs]
    have htake := take_set_succ s i j his
    have houter := ih i (j + 1)
    rw [hd] at houter
    rw [hd, combs, List.map_append, List.map_map, emitAll_append]
    by_cases hlast : i + 1 = m
    · have hd0 : d = 0 := by omega
      subst hd0
      have hfull : s.set i j = s.take i ++ [j] := by
        rw [← htake, List.take_of_length_le (by omega)]
      simp only [combs, List.map_cons, List.map_nil, Function.comp, emitAll, rc, his, hlast,
        if_true, ← hfull]
      cases hem : emit (s.set i j) acc with
      | error e => simp
      | ok acc2 =>
        simp only
        have := houter (s.set i j) acc2 him hs1
        rw [take_set_self] at this
        exact this
    · have hinner := ih (i + 1) (j + 1) (s.set i j) acc (by omega) hs1
      have hd' : m - (i + 1) = d := by omega
      rw [hd', htake] at hinner
      have hmap : (fun t => s.take i ++ t) ∘ (fun t => j :: t) = fun t => (s.take i ++ [j]) ++ t := by
        funext t; simp
      rw [hmap]
      simp only [rc, his, hlast, if_true, if_false]
      cases hem : emitAll emit ((combs d (j + 1) cnt).map (fun t => (s.take i ++ [j]) ++ t)) acc with
      | error e =>
        simp [hinner.1 e hem]
      | ok acc2 =>
        obtain ⟨s2, h2, hl2, ht2⟩ := hinner.2 acc2 hem
        simp only [h2]
        have := houter s2 acc2 him hl2
        have ht3 : s2.take i = s.take i := by
          have h3 := congrArg (List.take i) ht2
          have hlen : (s.take i).length = i := by simp; omega
          rw [List.take_take, Nat.min_eq_left (by omega), List.take_left' hlen] at h3
          exact h3
        rw [ht3] at this
        exact this

theorem allCombs_eq_emitAll {σ : Type} (n m : Nat) (emit : List Nat → σ → Except Panic σ)
    (init : σ) (hm : 1 ≤ m) :
    allCombs n m emit init = emitAll emit (combs m 0 n) init := by
  have h := rc_spec m emit n 0 0 (List.replicate m 0) init (by omega) (by simp)
  simp only [Nat.sub_zero, List.take_zero, List.nil_append, List.map_id'] at h
  unfold allCombs
  cases hem : emitAll emit (combs m 0 n) init with
  | error e => simp [h.1 e hem]
  | ok acc1 =>
    obtain ⟨s1, h1, -, -⟩ := h.2 acc1 hem
    simp [h1]

theorem combs_length (len : Nat) : ∀ (cnt j : Nat), (combs len j cnt).length = cnt.choose len := by
  induction len with
  | zero => intro cnt j; simp [combs]
  | succ len ihl =>
    intro cnt
    induction cnt with
    | zero => intro j; simp [combs]
    | succ cnt ihc =>
      intro j
      rw [combs, List.length_append, List.length_map, ihl, ihc, Nat.choose_succ_succ]

theorem mem_combs (len : Nat) : ∀ (cnt j : Nat) (c : List Nat),
    c ∈ combs len j cnt ↔
      c.length = len ∧ c.Sorted (· < ·) ∧ ∀ x ∈ c, j ≤ x ∧ x < j + cnt := by
  induction len with
  | zero =>
    intro cnt j c
    simp only [combs, List.mem_singleton, List.length_eq_zero]
    constructor
    · rintro rfl; simp
    · rintro ⟨h, -⟩; exact h
  | succ len ihl =>
    intro cnt
    induction cnt with
    | zero =>
      intro j c
      simp only [combs, List.not_mem_nil, false_iff, not_and]
      intro hlen _ hall
      cases c with
      | nil => simp at hlen
      | cons a c => have := hall a (by simp); omega
    | succ cnt ihc =>
      intro j c
      rw [combs, List.mem_append, List.mem_map, ihc]
      constructor
      · rintro (⟨t, ht, rfl⟩ | ⟨h1, h2, h3⟩)
        · rw [ihl] at ht
          obtain ⟨h1, h2, h3⟩ := ht
          refine ⟨by simp [h1], ?_, ?_⟩
          · rw [List.sorted_cons]
            exact ⟨fun b hb => by have := h3 b hb; omega, h2⟩
          · intro x hx
            rcases List.mem_cons.1 hx with rfl | hx
            · omega
            · have := h3 x hx; omega
        · exact ⟨h1, h2, fun x hx => by have := h3 x hx; omega⟩
      · rintro ⟨h1, h2, h3⟩
        cases c with
        | nil => simp at h1
        | cons a c =>
          rw [List.sorted_cons] at h2
          by_cases ha : a = j
          · left
            refine ⟨c, ?_, by rw [ha]⟩
            rw [ihl]
            refine ⟨by simpa using h1, h2.2, fun x hx => ?_⟩
            have h4 := h2.1 x hx
            have h5 := h3 x (List.mem_cons_of_mem _ hx)
            omega
          · right
            refine ⟨h1, List.sorted_cons.2 h2, fun x hx => ?_⟩
            have h5 := h3 x hx
            rcases List.mem_cons.1 hx with rfl | hx'
            · omega
            · have h4 := h2.1 x hx'
              have h6 := h3 a (by simp)
              omega

theorem combs_pairwise_lex (len : Nat) : ∀ (cnt j : Nat),
    (combs len j cnt).Pairwise (List.Lex (· < ·)) := by
  induction len with
  | zero => intro cnt j; simp [combs]
  | succ len ihl =>
    intro cnt
    induction cnt with
    | zero => intro j; simp [combs]
    | succ cnt ihc =>
      intro j
      rw [combs, List.pairwise_append]
      refine ⟨?_, ihc (j + 1), ?_⟩
      · rw [List.pairwise_map]
        exact (ihl cnt (j + 1)).imp (fun h => List.Lex.cons h)
      · intro a ha b hb
        obtain ⟨t, -, rfl⟩ := List.mem_map.1 ha
        rw [mem_combs] at hb
        obtain ⟨h1, -, h3⟩ := hb
        cases b with
        | nil => simp at h1
        | cons x b =>
          have := h3 x (by simp)
          exact List.Lex.rel (by omega)

theorem emitAll_snapshot (L log : List (List Nat)) :
    emitAll snapshot L log = .ok (log ++ L) := by
  induction L generalizing log with
  | nil => simp [emitAll]
  | cons c L ih => simp [emitAll, snapshot, ih]

/-- C2: for `1 ≤ m` (in particular for `1 ≤ m ≤ n`), the snapshots of the buffers that
`allCombs(n, m, emit)` passes to `emit` are strictly ascending lists of length `m` with
entries in `[0, n)`, come in strictly increasing lexicographic order, contain no duplicate,
contain every `m`-element subset of `[0, n)`, and number exactly `C(n, m)`. -/
theorem allCombs_enumerates (n m : Nat) (hm : 1 ≤ m) :
    ∃ L : List (List Nat), allCombs n m snapshot [] = .ok L ∧
      (∀ c ∈ L, c.length = m ∧ c.Sorted (· < ·) ∧ ∀ x ∈ c, x < n) ∧
      L.Pairwise (List.Lex (· < ·)) ∧
      L.Nodup ∧
      (∀ T : Finset Nat, T ⊆ Finset.range n → T.card = m → ∃ c ∈ L, c.toFinset = T) ∧
      L.length = n.choose m := by
  refine ⟨combs m 0 n, ?_, ?_, combs_pairwise_lex m n 0, ?_, ?_, combs_length m n 0⟩
  · rw [allCombs_eq_emitAll n m snapshot [] hm, emitAll_snapshot, List.nil_append]
  · intro c hc
    rw [mem_combs] at hc
    exact ⟨hc.1, hc.2.1, fun x hx => by have := hc.2.2 x hx; omega⟩
  · exact (combs_pairwise_lex m n 0).imp
      (fun h => List.Lex.to_ne (List.Lex.imp (fun _ _ hab => Nat.ne_of_lt hab) _ _ h))
  · intro T hT hcard
    refine ⟨T.sort (· ≤ ·), ?_, Finset.sort_toFinset _ T⟩
    rw [mem_combs]
    refine ⟨by rw [Finset.length_sort, hcard], Finset.sort_sorted_lt T, fun x hx => ?_⟩
    rw [Finset.mem_sort] at hx
    have := Finset.mem_range.1 (hT hx)
    omega

/-- Witness for C2 at `n = 5`, `m = 2`. -/
theorem allCombs_enumerates_witness :
    1 ≤ 2 ∧ ∃ L : List (List Nat), allCombs 5 2 snapshot [] = .ok L ∧
      (∀ c ∈ L, c.length = 2 ∧ c.Sorted (· < ·) ∧ ∀ x ∈ c, x < 5) ∧
      L.Pairwise (List.Lex (· < ·)) ∧
      L.Nodup ∧
      (∀ T : Finset Nat, T ⊆ Finset.range 5 → T.card = 2 → ∃ c ∈ L, c.toFinset = T) ∧
      L.length = Nat.choose 5 2 :=
  ⟨by decide, allCombs_enumerates 5 2 (by decide)⟩

/-- The ten buffers emitted by `allCombs(5, 2, emit)`, from `{0,1}` to `{3,4}`. -/
theorem allCombs_five_two :
    allCombs 5 2 snapshot [] =
      .ok [[0, 1], [0, 2], [0, 3], [0, 4], [1, 2], [1, 3], [1, 4], [2, 3], [2, 4], [3, 4]] := by
  rfl

/-! ## `randComb`: Floyd's algorithm -/

theorem floyd_length (rnd : Nat → Nat) (pos j k : Nat) : (floyd rnd pos j k).length = k := by
  induction k with
  | zero => simp [floyd]
  | succ k ih => simp [floyd, ih]

theorem floyd_lt (rnd : Nat → Nat) (pos j k : Nat) : ∀ x ∈ floyd rnd pos j k, x < j + k := by
  induction k with
  | zero => simp [floyd]
  | succ k ih =>
    intro x hx
    simp only [floyd, List.mem_append, List.mem_singleton] at hx
    rcases hx with hx | rfl
    · have := ih x hx; omega
    · split
      · have := Nat.mod_lt (rnd (pos + k)) (show 0 < j + k + 1 by omega); omega
      · omega

theorem floyd_new_not_mem (rnd : Nat → Nat) (pos j k : Nat) :
    (if ¬ (rnd (pos + k) % (j + k + 1) ∈ floyd rnd pos j k) then rnd (pos + k) % (j + k + 1)
      else j + k) ∉ floyd rnd pos j k := by
  split
  · assumption
  · intro h; have := floyd_lt rnd pos j k _ h; omega

theorem floyd_nodup (rnd : Nat → Nat) (pos j k : Nat) : (floyd rnd pos j k).Nodup := by
  induction k with
  | zero => simp [floyd]
  | succ k ih =>
    simp only [floyd]
    rw [List.nodup_append]
    refine ⟨ih, List.nodup_singleton _, ?_⟩
    intro a ha hb
    rw [List.mem_singleton] at hb
    subst hb
    exact floyd_new_not_mem rnd pos j k ha

theorem set_append_replicate (l : List Nat) (r x : Nat) :
    (l ++ List.replicate (r + 1) 0).set l.length x = (l ++ [x]) ++ List.replicate r 0 := by
  induction l with
  | nil => simp [List.replicate_succ]
  | cons a l ih => simp [ih]

theorem randLoop_floyd (rnd : Nat → Nat) (pos j m : Nat) : ∀ (cnt k : Nat), k + cnt = m →
    randLoop rnd cnt (((j + k : Nat)) : Int)
        { S := floyd rnd pos j k, c := floyd rnd pos j k ++ List.replicate (m - k) 0,
          pos := pos + k }
      = .ok { S := floyd rnd pos j m, c := floyd rnd pos j m, pos := pos + m } := by
  intro cnt
  induction cnt with
  | zero =>
    intro k hk
    have : k = m := by omega
    subst this
    simp [randLoop]
  | succ cnt ih =>
    intro k hk
    have hlen : (floyd rnd pos j k).length < (floyd rnd pos j k ++ List.replicate (m - k) 0).length := by
      simp; omega
    have hnew := floyd_new_not_mem rnd pos j k
    have hrep : m - k = (m - (k + 1)) + 1 := by omega
    have hset := set_append_replicate (floyd rnd pos j k) (m - (k + 1))
      (if ¬ (rnd (pos + k) % (j + k + 1) ∈ floyd rnd pos j k) then rnd (pos + k) % (j + k + 1)
        else j + k)
    rw [← hrep] at hset
    have hintn : intn rnd (pos + k) ((((j + k : Nat)) : Int) + 1)
        = .ok (rnd (pos + k) % (j + k + 1)) := by
      unfold intn
      rw [if_neg (by omega)]
      have : ((((j + k : Nat)) : Int) + 1).toNat = j + k + 1 := by omega
      rw [this]
    have hstep : randStep rnd (((j + k : Nat)) : Int)
        { S := floyd rnd pos j k, c := floyd rnd pos j k ++ List.replicate (m - k) 0,
          pos := pos + k }
        = .ok { S := floyd rnd pos j (k + 1),
                c := floyd rnd pos j (k + 1) ++ List.replicate (m - (k + 1)) 0,
                pos := pos + (k + 1) } := by
      unfold randStep
      simp only [hintn, Int.toNat_ofNat, hlen, if_true, hnew, if_false, hset]
      rfl
    have hcast : (((j + k : Nat)) : Int) + 1 = (((j + (k + 1) : Nat)) : Int) := by
      push_cast; ring
    rw [randLoop, hstep]
    simp only
    rw [hcast]
    exact ih (k + 1) (by omega)

theorem randComb_eq {σ : Type} (rnd : Nat → Nat) (pos n m : Nat)
    (emit : List Nat → σ → Except Panic σ) (init : σ) (hmn : m ≤ n) :
    randComb rnd pos n m emit init =
      match emit (floyd rnd pos (n - m) m) init with
      | .ok acc => .ok (acc, pos + m)
      | .error e => .error e := by
  have h := randLoop_floyd rnd pos (n - m) m m 0 (by omega)
  simp only [floyd, Nat.add_zero, List.nil_append, Nat.sub_zero] at h
  have hcast : (n : Int) - (m : Int) = (((n - m : Nat)) : Int) := by omega
  unfold randComb
  rw [hcast, h]

/-- C3: for `0 ≤ m ≤ n` and every random stream (hence every sequence of in-range draws),
`randComb(n, m, emit)` completes without a panic, calls `emit` exactly once, and the emitted
buffer has exactly `m` pairwise distinct entries, all in `[0, n)`. -/
theorem randComb_safe (rnd : Nat → Nat) (pos n m : Nat) (hmn : m ≤ n) :
    ∃ c : List Nat, randComb rnd pos n m snapshot [] = .ok ([c], pos + m) ∧
      c.length = m ∧ c.Nodup ∧ ∀ x ∈ c, x < n := by
  refine ⟨floyd rnd pos (n - m) m, ?_, floyd_length _ _ _ _, floyd_nodup _ _ _ _, ?_⟩
  · rw [randComb_eq rnd pos n m snapshot [] hmn]; simp [snapshot]
  · intro x hx
    have := floyd_lt rnd pos (n - m) m x hx
    omega


theorem mem_drawVectors (j k : Nat) (d : List Nat) :
    d ∈ drawVectors j k ↔ d.length = k ∧ ∀ i, i < k → d.getD i 0 ≤ j + i := by
  induction k generalizing d with
  | zero =>
    simp only [drawVectors, Finset.mem_singleton, List.length_eq_zero]
    constructor
    · rintro rfl; simp
    · rintro ⟨h, -⟩; exact h
  | succ k ih =>
    simp only [drawVectors, Finset.mem_image, Finset.mem_product, Finset.mem_range, Prod.exists]
    constructor
    · rintro ⟨init, t, ⟨hinit, ht⟩, rfl⟩
      rw [ih] at hinit
      obtain ⟨hl, hb⟩ := hinit
      refine ⟨by simp [hl], fun i hi => ?_⟩
      by_cases hik : i < k
      · rw [List.getD_append _ _ _ _ (by omega)]
        exact hb i hik
      · have : i = k := by omega
        subst this
        rw [List.getD_append_right _ _ _ _ (by omega)]
        simp [hl]; omega
    · rintro ⟨hl, hb⟩
      rcases List.eq_nil_or_concat d with rfl | ⟨init, t, rfl⟩
      · simp at hl
      · rw [List.concat_eq_append] at *
        have hl' : init.length = k := by simpa using hl
        refine ⟨init, t, ⟨?_, ?_⟩, rfl⟩
        · rw [ih]
          refine ⟨hl', fun i hi => ?_⟩
          have := hb i (by omega)
          rwa [List.getD_append _ _ _ _ (by omega)] at this
        · have := hb k (by omega)
          rw [List.getD_append_right _ _ _ _ (by omega)] at this
          simp [hl'] at this
          omega

theorem card_drawVectors (j k : Nat) : (drawVectors j k).card = (j + k).descFactorial k := by
  induction k with
  | zero => simp [drawVectors]
  | succ k ih =>
    rw [drawVectors, Finset.card_image_of_injective, Finset.card_product, ih, Finset.card_range,
      ← Nat.add_assoc, Nat.succ_descFactorial_succ, Nat.mul_comm]
    rintro ⟨a1, t1⟩ ⟨a2, t2⟩ h
    simp only at h
    have := List.append_inj' h rfl
    simp only [List.cons.injEq, and_true] at this
    rw [this.1, this.2]

theorem floyd_congr (rnd1 rnd2 : Nat → Nat) (pos j k : Nat)
    (h : ∀ i, i < k → rnd1 (pos + i) = rnd2 (pos + i)) :
    floyd rnd1 pos j k = floyd rnd2 pos j k := by
  induction k with
  | zero => simp [floyd]
  | succ k ih =>
    simp only [floyd]
    rw [ih (fun i hi => h i (by omega)), h k (by omega)]

theorem floyd_snoc (j k : Nat) (init : List Nat) (t : Nat) (hl : init.length = k)
    (ht : t < j + k + 1) :
    (floyd (streamOf (init ++ [t])) 0 j (k + 1)).toFinset =
      insert (if ¬ (t ∈ (floyd (streamOf init) 0 j k).toFinset) then t else j + k)
        (floyd (streamOf init) 0 j k).toFinset := by
  have h1 : floyd (streamOf (init ++ [t])) 0 j k = floyd (streamOf init) 0 j k := by
    apply floyd_congr
    intro i hi
    simp only [streamOf, Nat.zero_add]
    rw [List.getD_append _ _ _ _ (by omega)]
  have h2 : streamOf (init ++ [t]) (0 + k) % (j + k + 1) = t := by
    simp only [streamOf, Nat.zero_add]
    rw [List.getD_append_right _ _ _ _ (by omega)]
    simp [hl, Nat.mod_eq_of_lt ht]
  simp only [floyd]
  rw [h1, h2]
  ext x
  simp only [List.toFinset_append, List.toFinset_cons, List.toFinset_nil, Finset.mem_union,
    Finset.mem_insert, List.mem_toFinset, Finset.mem_singleton, insert_emptyc_eq]
  tauto

/-- The set-level content of one step of Floyd's algorithm: adding the element chosen by
the draw `t` to `S` gives `T` exactly when `t ∈ T` and `S` is `T` without the last index
(when `T` contains it) or without `t` (otherwise). -/
theorem floyd_step_iff (N t : Nat) (S T : Finset Nat) (hS : N ∉ S) :
    insert (if ¬ (t ∈ S) then t else N) S = T ↔
      t ∈ T ∧ S = (if N ∈ T then T.erase N else T.erase t) := by
  constructor
  · intro h
    subst h
    by_cases htS : t ∈ S
    · simp [htS, hS]
    · simp only [htS, not_false_eq_true, if_true, Finset.mem_insert, true_or, true_and, hS,
        or_false]
      by_cases htN : N = t
      · subst htN; simp [hS]
      · simp [htN, htS]
  · rintro ⟨htT, hS'⟩
    by_cases hN : N ∈ T
    · rw [if_pos hN] at hS'
      subst hS'
      by_cases htN : t = N
      · subst htN; simp [Finset.insert_erase hN]
      · have : t ∈ T.erase N := Finset.mem_erase.2 ⟨htN, htT⟩
        simp [this, Finset.insert_erase hN]
    · rw [if_neg hN] at hS'
      subst hS'
      simp [Finset.insert_erase htT]

theorem floyd_count (j k : Nat) : ∀ T : Finset Nat, T ⊆ Finset.range (j + k) → T.card = k →
    ((drawVectors j k).filter
      (fun d => (floyd (streamOf d) 0 j k).toFinset = T)).card = k.factorial := by
  induction k with
  | zero =>
    intro T _ hcard
    rw [Finset.card_eq_zero] at hcard
    subst hcard
    simp [drawVectors, floyd]
  | succ k ih =>
    intro T hT hcard
    have hinj : Function.Injective (fun p : List Nat × Nat => p.1 ++ [p.2]) := by
      rintro ⟨a1, t1⟩ ⟨a2, t2⟩ h
      simp only at h
      have := List.append_inj' h rfl
      simp only [List.cons.injEq, and_true] at this
      rw [this.1, this.2]
    have hcongr : ((drawVectors j k) ×ˢ (Finset.range (j + k + 1))).filter
          (fun p => (floyd (streamOf (p.1 ++ [p.2])) 0 j (k + 1)).toFinset = T)
        = ((drawVectors j k) ×ˢ (Finset.range (j + k + 1))).filter
          (fun p => p.2 ∈ T ∧ (floyd (streamOf p.1) 0 j k).toFinset =
            (if j + k ∈ T then T.erase (j + k) else T.erase p.2)) := by
      apply Finset.filter_congr
      rintro ⟨init, t⟩ hp
      simp only [Finset.mem_product, Finset.mem_range] at hp
      have hl := ((mem_drawVectors j k init).1 hp.1).1
      simp only
      rw [floyd_snoc j k init t hl hp.2]
      apply floyd_step_iff
      intro hmem
      have := floyd_lt (streamOf init) 0 j k (j + k) (List.mem_toFinset.1 hmem)
      omega
    have hinner : ∀ t ∈ Finset.range (j + k + 1),
        ((drawVectors j k).filter (fun init => t ∈ T ∧ (floyd (streamOf init) 0 j k).toFinset =
            (if j + k ∈ T then T.erase (j + k) else T.erase t))).card
          = if t ∈ T then k.factorial else 0 := by
      intro t _
      by_cases htT : t ∈ T
      · simp only [htT, true_and, if_true]
        apply ih
        · intro x hx
          split at hx
          · have h1 := Finset.mem_erase.1 hx
            have h2 := Finset.mem_range.1 (hT h1.2)
            exact Finset.mem_range.2 (by omega)
          · rename_i hN
            have h1 := Finset.mem_erase.1 hx
            have h2 := Finset.mem_range.1 (hT h1.2)
            have h3 : x ≠ j + k := fun h => hN (h ▸ h1.2)
            exact Finset.mem_range.2 (by omega)
        · split
          · rename_i hN
            rw [Finset.card_erase_of_mem hN, hcard]; rfl
          · rw [Finset.card_erase_of_mem htT, hcard]; rfl
      · simp [htT]
    rw [drawVectors, Finset.filter_image, Finset.card_image_of_injective _ hinj, hcongr,
      Finset.card_filter, Finset.sum_product_right]
    simp only [← Finset.card_filter]
    rw [Finset.sum_congr rfl hinner, Finset.sum_ite_mem, Finset.sum_const, smul_eq_mul,
      Finset.inter_eq_right.2 (by rwa [← Nat.add_assoc] at hT), hcard, Nat.factorial_succ]


/-- Witness for C3 at `n = 5`, `m = 2`. -/
theorem randComb_safe_witness :
    2 ≤ 5 ∧ ∃ c : List Nat, randComb (fun p => p) 0 5 2 snapshot [] = .ok ([c], 0 + 2) ∧
      c.length = 2 ∧ c.Nodup ∧ ∀ x ∈ c, x < 5 :=
  ⟨by decide, randComb_safe (fun p => p) 0 5 2 (by decide)⟩

theorem emittedSet_eq (n m : Nat) (d : List Nat) (hmn : m ≤ n) :
    emittedSet n m d = some (floyd (streamOf d) 0 (n - m) m).toFinset := by
  unfold emittedSet
  rw [randComb_eq (streamOf d) 0 n m snapshot [] hmn]
  rfl

/-- C4: Floyd sampling is uniform.  For `0 ≤ m ≤ n` and every `m`-element subset `T` of
`[0, n)`, exactly `m!` of the `n!/(n-m)!` draw vectors `(t_{n-m}, ..., t_{n-1})` with
`0 ≤ t_j ≤ j` make `randComb(n, m, emit)` emit a buffer whose set of entries is `T`. -/
theorem randComb_uniform (n m : Nat) (hmn : m ≤ n) (T : Finset Nat)
    (hT : T ⊆ Finset.range n) (hcard : T.card = m) :
    ((drawVectors (n - m) m).filter (fun d => emittedSet n m d = some T)).card = m.factorial ∧
    (drawVectors (n - m) m).card = n.factorial / (n - m).factorial ∧
    (∀ d, d ∈ drawVectors (n - m) m ↔
      d.length = m ∧ ∀ i, i < m → d.getD i 0 ≤ n - m + i) := by
  refine ⟨?_, ?_, mem_drawVectors (n - m) m⟩
  · have h := floyd_count (n - m) m T (by rwa [Nat.sub_add_cancel hmn]) hcard
    rw [← h]
    congr 1
    apply Finset.filter_congr
    intro d _
    rw [emittedSet_eq n m d hmn, Option.some.injEq]
  · rw [card_drawVectors, Nat.sub_add_cancel hmn, Nat.descFactorial_eq_div hmn]

/-- Witness for C4 at `n = 5`, `m = 2`, `T = {1, 3}`. -/
theorem randComb_uniform_witness :
    ((drawVectors (5 - 2) 2).filter (fun d => emittedSet 5 2 d = some {1, 3})).card
        = Nat.factorial 2 ∧
    (drawVectors (5 - 2) 2).card = Nat.factorial 5 / Nat.factorial (5 - 2) ∧
    (∀ d, d ∈ drawVectors (5 - 2) 2 ↔
      d.length = 2 ∧ ∀ i, i < 2 → d.getD i 0 ≤ 5 - 2 + i) :=
  randComb_uniform 5 2 (by decide) {1, 3} (by decide) (by decide)

/-! ## `permTest`: running sums and the exact test -/

theorem foldl_add_eq (l : List ℚ) (x : ℚ) : l.foldl (fun acc n => acc + n) x = x + l.sum := by
  induction l generalizing x with
  | nil => simp
  | cons a l ih => simp [ih, add_assoc]

theorem sum_eq (l : List ℚ) : sum l = l.sum := by
  simp [sum, foldl_add_eq]

theorem mean_eq (l : List ℚ) : mean l = FVal.div l.sum (l.length : ℚ) := by
  simp [mean, foldl_add_eq]

theorem sumLoop_eq (both : List ℚ) (c : List Nat) (hc : ∀ i ∈ c, i < both.length) (s1 s2 : ℚ) :
    sumLoop both c (s1, s2) = .ok (s1 - pick both c, s2 + pick both c) := by
  induction c generalizing s1 s2 with
  | nil => simp [sumLoop, pick]
  | cons i c ih =>
    have hi : i < both.length := hc i (by simp)
    have hget : both.get? i = some (both.getD i 0) := by
      rw [List.getD_eq_getElem?_getD, List.get?_eq_getElem?, List.getElem?_eq_getElem hi]
      simp
    simp only [sumLoop, hget]
    rw [ih (fun x hx => hc x (List.mem_cons_of_mem _ hx))]
    simp only [pick, List.map_cons, List.sum_cons]
    congr 2 <;> ring

theorem map_getD_range (both : List ℚ) :
    (List.range both.length).map (fun i => both.getD i 0) = both := by
  apply List.ext_getElem
  · simp
  · intro i h1 h2
    simp [List.getD_eq_getElem?_getD, List.getElem?_eq_getElem h2]

theorem filter_mem_perm (n : Nat) (c : List Nat) (hnd : c.Nodup) (hc : ∀ i ∈ c, i < n) :
    ((List.range n).filter (fun i => i ∈ c)).Perm c := by
  apply List.perm_of_nodup_nodup_toFinset_eq ((List.nodup_range n).filter _) hnd
  ext x
  simp only [List.toFinset_filter, decide_eq_true_eq, Finset.mem_filter, List.mem_toFinset,
    List.mem_range]
  exact ⟨fun h => h.2, fun h => ⟨hc x h, h⟩⟩

theorem sum_groupIn (both : List ℚ) (c : List Nat) (hnd : c.Nodup)
    (hc : ∀ i ∈ c, i < both.length) : (groupIn both c).sum = pick both c := by
  unfold groupIn pick
  exact ((filter_mem_perm both.length c hnd hc).map _).sum_eq

theorem sum_groupIn_add_groupOut (both : List ℚ) (c : List Nat) :
    (groupIn both c).sum + (groupOut both c).sum = both.sum := by
  unfold groupIn groupOut
  rw [← List.sum_append, ← List.map_append]
  have h := (List.filter_append_perm (fun i => decide (i ∈ c)) (List.range both.length)).map
    (fun i => both.getD i 0)
  have h2 := h.sum_eq
  rw [map_getD_range] at h2
  rw [← h2]
  congr 3
  apply List.filter_congr
  intro x _
  simp

theorem length_groupIn (both : List ℚ) (c : List Nat) (hnd : c.Nodup)
    (hc : ∀ i ∈ c, i < both.length) : (groupIn both c).length = c.length := by
  unfold groupIn
  rw [List.length_map]
  exact (filter_mem_perm both.length c hnd hc).length_eq

theorem length_groupOut (both : List ℚ) (c : List Nat) (hnd : c.Nodup)
    (hc : ∀ i ∈ c, i < both.length) :
    (groupOut both c).length + c.length = both.length := by
  have h := (List.filter_append_perm (fun i => decide (i ∈ c)) (List.range both.length)).length_eq
  rw [List.length_append, List.length_range,
    (filter_mem_perm both.length c hnd hc).length_eq] at h
  unfold groupOut
  rw [List.length_map]
  have h3 : (List.filter (fun i => decide ¬ (i ∈ c)) (List.range both.length))
      = List.filter (fun x => !decide (x ∈ c)) (List.range both.length) := by
    apply List.filter_congr
    intro x _
    simp
  rw [h3]
  omega

theorem countBigger_eq (both : List ℚ) (sumBoth : ℚ) (origDiff : FVal) (c : List Nat)
    (hc : ∀ i ∈ c, i < both.length) (st : Counters) :
    countBigger both sumBoth origDiff c st =
      .ok { numTrials := st.numTrials + 1,
            numBigger := st.numBigger + (if bigger both sumBoth origDiff c then 1 else 0) } := by
  unfold countBigger
  rw [sumLoop_eq both c hc]
  simp only [zero_add, bigger]
  split <;> rfl

/-- C10: running-sum scoring matches naive recomputation.  For every pool and every list
`c` of pairwise distinct in-range indices, in any order, the values `sum1` and `sum2` that
`countBigger` computes are the sums of the pool elements at the indices outside and inside
`c`, rebuilt from scratch; hence `sum1 + sum2 = sum(pool)`, `mean1 - mean2` is the difference
of the means of the two rebuilt partitions, and the trial is scored on that difference. -/
theorem countBigger_running_sums (both : List ℚ) (c : List Nat) (hnd : c.Nodup)
    (hc : ∀ i ∈ c, i < both.length) :
    ∃ sum1 sum2 : ℚ, sumLoop both c (sum both, 0) = .ok (sum1, sum2) ∧
      sum2 = sum (groupIn both c) ∧ sum1 = sum (groupOut both c) ∧
      sum1 + sum2 = sum both ∧
      FVal.sub (FVal.div sum1 (((both.length : Int) - (c.length : Int) : Int) : ℚ))
          (FVal.div sum2 (c.length : ℚ))
        = FVal.sub (mean (groupOut both c)) (mean (groupIn both c)) ∧
      ∀ (origDiff : FVal) (st : Counters),
        countBigger both (sum both) origDiff c st =
          .ok { numTrials := st.numTrials + 1,
                numBigger :=
                  if FVal.ge (FVal.abs (FVal.sub (mean (groupOut both c)) (mean (groupIn both c))))
                      origDiff
                  then st.numBigger + 1 else st.numBigger } := by
  have hin := sum_groupIn both c hnd hc
  have hadd := sum_groupIn_add_groupOut both c
  have hlin := length_groupIn both c hnd hc
  have hlout := length_groupOut both c hnd hc
  have h2 : (0 : ℚ) + pick both c = sum (groupIn both c) := by rw [sum_eq, hin, zero_add]
  have h1 : sum both - pick both c = sum (groupOut both c) := by
    rw [sum_eq, sum_eq, ← hadd, hin]; ring
  have hden : (((both.length : Int) - (c.length : Int) : Int) : ℚ)
      = ((groupOut both c).length : ℚ) := by
    rw [← hlout]; push_cast; ring
  have hmeans : FVal.sub
      (FVal.div (sum (groupOut both c)) (((both.length : Int) - (c.length : Int) : Int) : ℚ))
      (FVal.div (sum (groupIn both c)) (c.length : ℚ))
        = FVal.sub (mean (groupOut both c)) (mean (groupIn both c)) := by
    rw [mean_eq, mean_eq, hden, hlin, sum_eq, sum_eq]
  refine ⟨sum both - pick both c, 0 + pick both c, sumLoop_eq both c hc _ _, h2, h1, ?_, ?_, ?_⟩
  · ring
  · rw [h1, h2]; exact hmeans
  · intro origDiff st
    unfold countBigger
    rw [sumLoop_eq both c hc]
    simp only
    rw [h1, h2, hmeans]

theorem emitAll_countBigger (both : List ℚ) (sumBoth : ℚ) (origDiff : FVal)
    (L : List (List Nat)) (hL : ∀ c ∈ L, ∀ i ∈ c, i < both.length) (st : Counters) :
    emitAll (countBigger both sumBoth origDiff) L st =
      .ok { numTrials := st.numTrials + L.length,
            numBigger := st.numBigger + L.countP (bigger both sumBoth origDiff) } := by
  induction L generalizing st with
  | nil => simp [emitAll]
  | cons c L ih =>
    rw [emitAll, countBigger_eq both sumBoth origDiff c (hL c (by simp))]
    simp only
    rw [ih (fun c hc => hL c (List.mem_cons_of_mem _ hc))]
    simp only [List.length_cons, List.countP_cons]
    congr 2 <;> omega

theorem randTrials_eq {σ : Type} (rnd : Nat → Nat) (n m : Nat)
    (emit : List Nat → σ → Except Panic σ) (hmn : m ≤ n) (cnt pos : Nat) (acc : σ) :
    randTrials rnd n m emit cnt pos acc = emitAll emit (trialBuffers rnd n m cnt pos) acc := by
  induction cnt generalizing pos acc with
  | zero => simp [randTrials, trialBuffers, emitAll]
  | succ cnt ih =>
    rw [randTrials, randComb_eq rnd pos n m emit acc hmn, trialBuffers, emitAll]
    cases emit (floyd rnd pos (n - m) m) acc with
    | error e => rfl
    | ok acc1 => exact ih (pos + m) acc1

theorem min_le_add (x y : Nat) : min x y ≤ x + y := by
  unfold min; split <;> omega

theorem trialBuffers_lt (rnd : Nat → Nat) (n m : Nat) (hmn : m ≤ n) (cnt pos : Nat) :
    ∀ c ∈ trialBuffers rnd n m cnt pos, ∀ i ∈ c, i < n := by
  induction cnt generalizing pos with
  | zero => simp [trialBuffers]
  | succ cnt ih =>
    intro c hc i hi
    rw [trialBuffers, List.mem_cons] at hc
    rcases hc with rfl | hc
    · have := floyd_lt rnd pos (n - m) m i hi
      omega
    · exact ih (pos + m) c hc i hi

theorem trialBuffers_length (rnd : Nat → Nat) (n m cnt pos : Nat) :
    (trialBuffers rnd n m cnt pos).length = cnt := by
  induction cnt generalizing pos with
  | zero => simp [trialBuffers]
  | succ cnt ih => simp [trialBuffers, ih]

theorem scoredSubsets_lt (rnd : Nat → Nat) (a b : List ℚ) (E : Int) :
    ∀ c ∈ scoredSubsets rnd a b E, ∀ i ∈ c, i < (a ++ b).length := by
  intro c hc i hi
  unfold scoredSubsets at hc
  split at hc
  · rw [mem_combs] at hc
    have := hc.2.2 i hi
    omega
  · exact trialBuffers_lt rnd _ _ (by rw [List.length_append]; exact min_le_add _ _) _ _ c hc i hi

theorem permTestCounters_eq (rnd : Nat → Nat) (a b : List ℚ) (nIter E : Int)
    (ha : a ≠ []) (hb : b ≠ []) (hE : effectiveIter nIter (a ++ b).length = .ok E) :
    permTestCounters rnd a b nIter =
      .ok { numTrials := (scoredSubsets rnd a b E).length,
            numBigger := (scoredSubsets rnd a b E).countP
              (bigger (a ++ b) (sum (a ++ b)) (FVal.abs (FVal.sub (mean a) (mean b)))) } := by
  have hla : 0 < a.length := List.length_pos.2 ha
  have hlb : 0 < b.length := List.length_pos.2 hb
  have hm : 1 ≤ min a.length b.length := by unfold min; split <;> omega
  have hL := scoredSubsets_lt rnd a b E
  unfold permTestCounters
  simp only [hE]
  unfold scoredSubsets at hL ⊢
  split
  · rename_i h
    rw [if_pos h] at hL
    rw [allCombs_eq_emitAll _ _ _ _ hm, emitAll_countBigger _ _ _ _ hL]
    simp
  · rename_i h
    rw [if_neg h] at hL
    rw [randTrials_eq _ _ _ _ (by rw [List.length_append]; exact min_le_add _ _),
      emitAll_countBigger _ _ _ _ hL]
    simp

theorem binom_eq_choose_min (x y : Nat) : binom x y = ((x + y).choose (min x y) : ℚ) := by
  rw [binom_eq_choose]
  unfold min
  split
  · rw [Nat.add_comm x y, Nat.choose_symm_add]
  · rfl

theorem FVal_div_of_ne (x y : ℚ) (hy : y ≠ 0) : FVal.div x y = .fin (x / y) := by
  simp [FVal.div, hy]

theorem pick_eq_sum (both : List ℚ) (c : List Nat) (hnd : c.Nodup) :
    pick both c = ∑ i in c.toFinset, both.getD i 0 := by
  unfold pick
  rw [List.sum_toFinset _ hnd]

theorem sum_eq_range (both : List ℚ) :
    both.sum = ∑ i in Finset.range both.length, both.getD i 0 := by
  conv_lhs => rw [← map_getD_range both]
  rw [← List.sum_toFinset _ (List.nodup_range _)]
  congr 1
  ext x
  simp

theorem bigger_eq (a b : List ℚ) (ha : a ≠ []) (hb : b ≠ []) (c : List Nat) (hnd : c.Nodup)
    (hlen : c.length = min a.length b.length) (hc : ∀ i ∈ c, i < (a ++ b).length) :
    bigger (a ++ b) (sum (a ++ b)) (FVal.abs (FVal.sub (mean a) (mean b))) c =
      decide (|a.sum / (a.length : ℚ) - b.sum / (b.length : ℚ)| ≤
        |(∑ i in c.toFinset, (a ++ b).getD i 0) / (c.toFinset.card : ℚ)
          - (∑ i in Finset.range (a ++ b).length \ c.toFinset, (a ++ b).getD i 0)
            / (((a ++ b).length - c.toFinset.card : Nat) : ℚ)|) := by
  have hla : 0 < a.length := List.length_pos.2 ha
  have hlb : 0 < b.length := List.length_pos.2 hb
  have hm : 1 ≤ c.length := by rw [hlen]; unfold min; split <;> omega
  have hmn : c.length < (a ++ b).length := by
    rw [hlen, List.length_append]; unfold min; split <;> omega
  have hcard : c.toFinset.card = c.length := List.toFinset_card_of_nodup hnd
  have hsub : c.toFinset ⊆ Finset.range (a ++ b).length := by
    intro x hx
    exact Finset.mem_range.2 (hc x (List.mem_toFinset.1 hx))
  have hoff : ∑ i in Finset.range (a ++ b).length \ c.toFinset, (a ++ b).getD i 0
      = sum (a ++ b) - pick (a ++ b) c := by
    rw [sum_eq, sum_eq_range, pick_eq_sum _ _ hnd, ← Finset.sum_sdiff hsub]
    ring
  have hd1 : (((((a ++ b).length : Int) - (c.length : Int) : Int)) : ℚ) ≠ 0 := by
    have : (0 : Int) < ((a ++ b).length : Int) - (c.length : Int) := by omega
    exact_mod_cast this.ne'
  have hd1' : (((((a ++ b).length : Int) - (c.length : Int) : Int)) : ℚ)
      = (((a ++ b).length - c.length : Nat) : ℚ) := by
    rw [Nat.cast_sub (le_of_lt hmn)]; push_cast; ring
  have hd2 : (c.length : ℚ) ≠ 0 := by exact_mod_cast (by omega : c.length ≠ 0)
  have hda : (a.length : ℚ) ≠ 0 := by exact_mod_cast hla.ne'
  have hdb : (b.length : ℚ) ≠ 0 := by exact_mod_cast hlb.ne'
  unfold bigger
  rw [mean_eq, mean_eq, FVal_div_of_ne _ _ hda, FVal_div_of_ne _ _ hdb, FVal_div_of_ne _ _ hd1,
    FVal_div_of_ne _ _ hd2]
  simp only [FVal.sub, FVal.abs, FVal.ge]
  rw [hoff, ← pick_eq_sum _ _ hnd, hcard, ← hd1', abs_sub_comm (pick (a ++ b) c / _)]

theorem combs_toFinset_injOn (m n : Nat) :
    ∀ x ∈ combs m 0 n, ∀ y ∈ combs m 0 n, x.toFinset = y.toFinset → x = y := by
  intro x hx y hy hxy
  rw [mem_combs] at hx hy
  exact List.eq_of_perm_of_sorted
    (List.perm_of_nodup_nodup_toFinset_eq hx.2.1.nodup hy.2.1.nodup hxy) hx.2.1 hy.2.1

theorem combs_nodup (m n : Nat) : (combs m 0 n).Nodup :=
  (combs_pairwise_lex m n 0).imp
    (fun h => List.Lex.to_ne (List.Lex.imp (fun _ _ hab => Nat.ne_of_lt hab) _ _ h))

theorem combs_toFinset (m n : Nat) :
    ((combs m 0 n).map List.toFinset).toFinset = (Finset.range n).powersetCard m := by
  ext T
  simp only [List.mem_toFinset, List.mem_map, Finset.mem_powersetCard]
  constructor
  · rintro ⟨c, hc, rfl⟩
    rw [mem_combs] at hc
    refine ⟨fun x hx => ?_, ?_⟩
    · have := hc.2.2 x (List.mem_toFinset.1 hx)
      exact Finset.mem_range.2 (by omega)
    · rw [List.toFinset_card_of_nodup hc.2.1.nodup, hc.1]
  · rintro ⟨hT, hcard⟩
    refine ⟨T.sort (· ≤ ·), ?_, Finset.sort_toFinset _ T⟩
    rw [mem_combs]
    refine ⟨by rw [Finset.length_sort, hcard], Finset.sort_sorted_lt T, fun x hx => ?_⟩
    rw [Finset.mem_sort] at hx
    have := Finset.mem_range.1 (hT hx)
    omega

theorem card_filter_toFinset {α : Type} [DecidableEq α] (l : List α) (hnd : l.Nodup)
    (P : α → Prop) [DecidablePred P] :
    (l.toFinset.filter P).card = l.countP (fun x => decide (P x)) := by
  induction l with
  | nil => simp
  | cons a l ih =>
    rw [List.nodup_cons] at hnd
    rw [List.toFinset_cons, Finset.filter_insert, List.countP_cons]
    by_cases hP : P a
    · rw [if_pos hP, Finset.card_insert_of_not_mem, ih hnd.2]
      · simp [hP]
      · intro hmem
        exact hnd.1 (List.mem_toFinset.1 (Finset.mem_filter.1 hmem).1)
    · rw [if_neg hP, ih hnd.2]
      simp [hP]

theorem countP_combs_eq_card (n m : Nat) (p : List Nat → Bool) (P : Finset Nat → Prop)
    [DecidablePred P] (h : ∀ c ∈ combs m 0 n, p c = decide (P c.toFinset)) :
    (combs m 0 n).countP p = (((Finset.range n).powersetCard m).filter P).card := by
  have hnd : ((combs m 0 n).map List.toFinset).Nodup :=
    List.Nodup.map_on (combs_toFinset_injOn m n) (combs_nodup m n)
  rw [← combs_toFinset, card_filter_toFinset _ hnd, List.countP_map]
  apply List.countP_congr
  intro c hc
  simp [h c hc]

theorem choose_min_pos (x y : Nat) : 0 < (x + y).choose (min x y) :=
  Nat.choose_pos (min_le_add x y)

theorem effectiveIter_of_ne (nIter : Int) (n : Nat) (h : nIter ≠ 0) :
    effectiveIter nIter n = .ok nIter := by
  simp [effectiveIter, h]

theorem scoredSubsets_exact (rnd : Nat → Nat) (a b : List ℚ) (E : Int)
    (hE : ((a.length + b.length).choose (min a.length b.length) : Int) ≤ E) :
    scoredSubsets rnd a b E = combs (min a.length b.length) 0 (a ++ b).length := by
  unfold scoredSubsets
  rw [if_pos]
  rw [binom_eq_choose_min]
  exact_mod_cast hE

theorem permTest_exact (rnd : Nat → Nat) (a b : List ℚ) (nIter : Int) (ha : a ≠ [])
    (hb : b ≠ [])
    (hN : ((a.length + b.length).choose (min a.length b.length) : Int) ≤ nIter) :
    permTest rnd a b nIter =
      .ok (.fin (((combs (min a.length b.length) 0 (a ++ b).length).countP
          (bigger (a ++ b) (sum (a ++ b)) (FVal.abs (FVal.sub (mean a) (mean b)))) : ℚ)
        / ((a ++ b).length.choose (min a.length b.length) : ℚ))) := by
  have hpos := choose_min_pos a.length b.length
  have hne : nIter ≠ 0 := by omega
  unfold permTest
  rw [permTestCounters_eq rnd a b nIter nIter ha hb (effectiveIter_of_ne _ _ hne),
    scoredSubsets_exact rnd a b nIter hN]
  simp only [combs_length]
  rw [FVal_div_of_ne]
  rw [List.length_append]
  exact_mod_cast hpos.ne'

/-- The program evaluated in exact arithmetic: exact mode equals brute force.  For non-empty
groups `a`, `b` and every iteration count `nIter` with `C(|a|+|b|, m) ≤ nIter`,
`m = min(|a|, |b|)`, the evaluation of `permTest(a, b, nIter)` over `ℚ` returns the number of
`m`-element index subsets of the pool whose re-grouping has a difference of means at least
the observed one, divided by `C(|pool|, m)`.  The binary64 program does not have this
property; see the last section. -/
theorem permTest_exact_eq_bruteForce (rnd : Nat → Nat) (a b : List ℚ) (nIter : Int)
    (ha : a ≠ []) (hb : b ≠ [])
    (hN : ((a.length + b.length).choose (min a.length b.length) : Int) ≤ nIter) :
    permTest rnd a b nIter = .ok (.fin (bruteForce a b)) := by
  have h := countP_combs_eq_card (a ++ b).length (min a.length b.length)
    (bigger (a ++ b) (sum (a ++ b)) (FVal.abs (FVal.sub (mean a) (mean b))))
    (fun T => |a.sum / (a.length : ℚ) - b.sum / (b.length : ℚ)| ≤
      |(∑ i in T, (a ++ b).getD i 0) / (T.card : ℚ)
        - (∑ i in Finset.range (a ++ b).length \ T, (a ++ b).getD i 0)
          / (((a ++ b).length - T.card : Nat) : ℚ)|)
    (by
      intro c hc
      rw [mem_combs] at hc
      exact bigger_eq a b ha hb c hc.2.1.nodup hc.1
        (fun i hi => by have := hc.2.2 i hi; omega))
  rw [permTest_exact rnd a b nIter ha hb hN, h]
  rfl

/-- The exact-arithmetic statement at `a = [1,2,3]`, `b = [10,11,12]` and 20 requested
iterations. -/
theorem permTest_exact_eq_bruteForce_witness :
    permTest (fun _ => 0) [1, 2, 3] [10, 11, 12] 20
      = .ok (.fin (bruteForce [1, 2, 3] [10, 11, 12])) :=
  permTest_exact_eq_bruteForce (fun _ => 0) [1, 2, 3] [10, 11, 12] 20 (by simp) (by simp)
    (by decide)

/-- Witness for C10 at the pool `[1, 2, 3, 10]` and the unsorted index list `[3, 0]`. -/
theorem countBigger_running_sums_witness :
    ∃ sum1 sum2 : ℚ, sumLoop [1, 2, 3, 10] [3, 0] (sum [1, 2, 3, 10], 0) = .ok (sum1, sum2) ∧
      sum2 = sum (groupIn [1, 2, 3, 10] [3, 0]) ∧ sum1 = sum (groupOut [1, 2, 3, 10] [3, 0]) ∧
      sum1 + sum2 = sum [1, 2, 3, 10] ∧
      FVal.sub
          (FVal.div sum1
            (((([1, 2, 3, 10] : List ℚ).length : Int) - (([3, 0] : List Nat).length : Int) : Int) : ℚ))
          (FVal.div sum2 ((([3, 0] : List Nat).length : Nat) : ℚ))
        = FVal.sub (mean (groupOut [1, 2, 3, 10] [3, 0])) (mean (groupIn [1, 2, 3, 10] [3, 0])) ∧
      ∀ (origDiff : FVal) (st : Counters),
        countBigger [1, 2, 3, 10] (sum [1, 2, 3, 10]) origDiff [3, 0] st =
          .ok { numTrials := st.numTrials + 1,
                numBigger :=
                  if FVal.ge (FVal.abs (FVal.sub (mean (groupOut [1, 2, 3, 10] [3, 0]))
                      (mean (groupIn [1, 2, 3, 10] [3, 0])))) origDiff
                  then st.numBigger + 1 else st.numBigger } :=
  countBigger_running_sums [1, 2, 3, 10] [3, 0] (by decide) (by decide)

/-! ## `permTest`: range of the result, empty groups, iteration count -/

theorem effectiveIter_zero (n : Nat) (hn : 0 < n) :
    effectiveIter 0 n = .ok (((30000000 / n : Nat) : Int)) := by
  simp [effectiveIter, hn.ne']

theorem scoredSubsets_length_pos (rnd : Nat → Nat) (a b : List ℚ) (E : Int) (hE : 1 ≤ E) :
    1 ≤ (scoredSubsets rnd a b E).length := by
  unfold scoredSubsets
  split
  · rw [combs_length, List.length_append]
    exact choose_min_pos _ _
  · rw [trialBuffers_length]
    omega

theorem binom_zero_left (y : Nat) : binom 0 y = 1 := by
  rw [binom_eq_choose]; simp

theorem binom_zero_right (x : Nat) : binom x 0 = 1 := by
  rw [binom_eq_choose]; simp

theorem scoredSubsets_of_lt (rnd : Nat → Nat) (a b : List ℚ) (E : Int) (hE : E < 1) :
    scoredSubsets rnd a b E = [] := by
  have h1 : ¬ binom a.length b.length ≤ (E : ℚ) := by
    rw [binom_eq_choose_min, not_le]
    have h2 : (E : ℚ) < 1 := by exact_mod_cast hE
    have h3 : (1 : ℚ) ≤ ((a.length + b.length).choose (min a.length b.length) : ℚ) := by
      exact_mod_cast choose_min_pos a.length b.length
    linarith
  have h4 : E.toNat = 0 := by omega
  simp [scoredSubsets, h1, h4, trialBuffers]

theorem permTest_of_lt_one (rnd : Nat → Nat) (a b : List ℚ) (nIter E : Int)
    (ha : a ≠ []) (hb : b ≠ []) (hE : effectiveIter nIter (a ++ b).length = .ok E)
    (hlt : E < 1) :
    permTestCounters rnd a b nIter = .ok { numTrials := 0, numBigger := 0 } ∧
    permTest rnd a b nIter = .ok .nan := by
  have hc : permTestCounters rnd a b nIter = .ok { numTrials := 0, numBigger := 0 } := by
    rw [permTestCounters_eq rnd a b nIter E ha hb hE, scoredSubsets_of_lt rnd a b E hlt]
    simp
  refine ⟨hc, ?_⟩
  unfold permTest
  rw [hc]
  simp [FVal.div]

/-- C6 (amended): for non-empty groups and a requested iteration count that is at least 1,
or that is 0 with a pool of at most 30,000,000 numbers, and for every random stream,
`permTest` returns normally, scores at least one trial, keeps `numBigger ≤ numTrials`, and
returns a finite value `p` with `0 ≤ p ≤ 1`. -/
theorem permTest_in_unit_interval (rnd : Nat → Nat) (a b : List ℚ) (nIter : Int)
    (ha : a ≠ []) (hb : b ≠ [])
    (hN : 1 ≤ nIter ∨ (nIter = 0 ∧ a.length + b.length ≤ 30000000)) :
    ∃ (st : Counters) (p : ℚ), permTestCounters rnd a b nIter = .ok st ∧
      1 ≤ st.numTrials ∧ st.numBigger ≤ st.numTrials ∧
      permTest rnd a b nIter = .ok (.fin p) ∧ 0 ≤ p ∧ p ≤ 1 := by
  have hla : 0 < a.length := List.length_pos.2 ha
  obtain ⟨E, hE, hE1⟩ : ∃ E, effectiveIter nIter (a ++ b).length = .ok E ∧ 1 ≤ E := by
    rcases hN with h | ⟨h0, hle⟩
    · exact ⟨nIter, effectiveIter_of_ne _ _ (by omega), h⟩
    · subst h0
      refine ⟨_, effectiveIter_zero _ (by rw [List.length_append]; omega), ?_⟩
      rw [List.length_append]
      have : 1 ≤ 30000000 / (a.length + b.length) :=
        (Nat.le_div_iff_mul_le (by omega)).2 (by omega)
      exact_mod_cast this
  have hc := permTestCounters_eq rnd a b nIter E ha hb hE
  have hpos := scoredSubsets_length_pos rnd a b E hE1
  have hle : (scoredSubsets rnd a b E).countP
      (bigger (a ++ b) (sum (a ++ b)) (FVal.abs (FVal.sub (mean a) (mean b))))
      ≤ (scoredSubsets rnd a b E).length := List.countP_le_length _
  have hposq : (0 : ℚ) < ((scoredSubsets rnd a b E).length : ℚ) := by exact_mod_cast hpos
  refine ⟨_, (((scoredSubsets rnd a b E).countP
      (bigger (a ++ b) (sum (a ++ b)) (FVal.abs (FVal.sub (mean a) (mean b)))) : Nat) : ℚ)
      / ((scoredSubsets rnd a b E).length : ℚ), hc, hpos, hle, ?_, ?_, ?_⟩
  · unfold permTest
    rw [hc]
    simp only
    rw [FVal_div_of_ne _ _ hposq.ne']
  · exact div_nonneg (Nat.cast_nonneg _) (Nat.cast_nonneg _)
  · rw [div_le_one hposq]
    exact_mod_cast hle

/-- Counterexample to C6 as stated: with the negative iteration count `-5` and the groups
`[1]`, `[2]`, `permTest` scores no trial and returns NaN, which is no value in `[0, 1]`; the
same happens with the iteration count 0 when the pool has 30,000,001 numbers, because the
default count `30,000,000 / len(pool)` is then 0. -/
theorem permTest_negative_iter_not_probability :
    permTestCounters (fun _ => 0) [1] [2] (-5) = .ok { numTrials := 0, numBigger := 0 } ∧
    permTest (fun _ => 0) [1] [2] (-5) = .ok .nan ∧
    (¬ ∃ p : ℚ, permTest (fun _ => 0) [1] [2] (-5) = .ok (.fin p) ∧ 0 ≤ p ∧ p ≤ 1) ∧
    permTest (fun _ => 0) (List.replicate 30000000 1) [2] 0 = .ok .nan := by
  have h12 := permTest_of_lt_one (fun _ => 0) [1] [2] (-5) (-5) (by simp) (by simp)
    (effectiveIter_of_ne _ _ (by decide)) (by decide)
  refine ⟨h12.1, h12.2, ?_, ?_⟩
  · rintro ⟨p, hp, -⟩
    rw [h12.2] at hp
    cases hp
  · have ha : (List.replicate 30000000 (1 : ℚ)) ≠ [] := by
      intro h
      have hl := congrArg List.length h
      rw [List.length_replicate] at hl
      exact absurd hl (by decide)
    have hlen : (List.replicate 30000000 (1 : ℚ) ++ [2]).length = 30000001 := by
      rw [List.length_append, List.length_replicate]
      rfl
    have hE : effectiveIter 0 (List.replicate 30000000 (1 : ℚ) ++ [2]).length = .ok 0 := by
      rw [hlen, effectiveIter_zero _ (by decide)]
      rfl
    exact (permTest_of_lt_one _ _ _ 0 0 ha (by simp) hE (by decide)).2

/-- Counterexample to C9 as stated: a negative requested count is kept as it is; it is not
replaced by `30,000,000 / len(pool)`. -/
theorem effectiveIter_negative_kept :
    effectiveIter (-3) 2 = .ok (-3) ∧
    effectiveIter (-3) 2 ≠ .ok (((30000000 / 2 : Nat) : Int)) := by
  constructor
  · simp [effectiveIter]
  · simp [effectiveIter]

/-- C9 (amended): for non-empty groups, the effective iteration count of `permTest` is the
requested count whenever that is non-zero (negative counts included) and
`30,000,000 / len(pool)` exactly when the requested count is 0; `permTest` scores the subsets
determined by that count, and with a negative count it scores no trial at all. -/
theorem permTest_effective_iterations (rnd : Nat → Nat) (a b : List ℚ) (nIter : Int)
    (ha : a ≠ []) (hb : b ≠ []) :
    effectiveIter nIter (a ++ b).length =
        .ok (if nIter = 0 then (((30000000 / (a ++ b).length : Nat)) : Int) else nIter) ∧
    (∀ E, effectiveIter nIter (a ++ b).length = .ok E →
      permTestCounters rnd a b nIter =
        .ok { numTrials := (scoredSubsets rnd a b E).length,
              numBigger := (scoredSubsets rnd a b E).countP
                (bigger (a ++ b) (sum (a ++ b)) (FVal.abs (FVal.sub (mean a) (mean b)))) }) ∧
    (nIter < 0 → permTestCounters rnd a b nIter = .ok { numTrials := 0, numBigger := 0 }) := by
  have hla : 0 < a.length := List.length_pos.2 ha
  refine ⟨?_, fun E hE => permTestCounters_eq rnd a b nIter E ha hb hE, fun hneg => ?_⟩
  · by_cases h0 : nIter = 0
    · subst h0
      rw [effectiveIter_zero _ (by rw [List.length_append]; omega)]
      simp
    · rw [effectiveIter_of_ne _ _ h0, if_neg h0]
  · rw [permTestCounters_eq rnd a b nIter nIter ha hb (effectiveIter_of_ne _ _ (by omega)),
      scoredSubsets_of_lt rnd a b nIter (by omega)]
    simp

theorem allCombs_zero {σ : Type} (n : Nat) (emit : List Nat → σ → Except Panic σ) (init : σ) :
    allCombs n 0 emit init = if n = 0 then .ok init else .error .indexOutOfRange := by
  cases n with
  | zero => simp [allCombs, rc]
  | succ n => simp [allCombs, rc]

theorem permTestCounters_empty (rnd : Nat → Nat) (a b : List ℚ) (nIter : Int)
    (h : a = [] ∨ b = []) :
    permTestCounters rnd a b nIter =
      match effectiveIter nIter (a ++ b).length with
      | .error e => .error e
      | .ok E =>
        if 1 ≤ E then
          (if (a ++ b).length = 0 then .ok { numTrials := 0, numBigger := 0 }
           else .error .indexOutOfRange)
        else .ok { numTrials := 0, numBigger := 0 } := by
  have hmin : min a.length b.length = 0 := by
    unfold min
    rcases h with h | h <;> subst h <;> simp
  have hbin : binom a.length b.length = 1 := by
    rcases h with h | h <;> subst h
    · exact binom_zero_left _
    · exact binom_zero_right _
  unfold permTestCounters
  simp only [hmin, hbin]
  cases effectiveIter nIter (a ++ b).length with
  | error e => rfl
  | ok E =>
    simp only
    by_cases hE : 1 ≤ E
    · have hq : (1 : ℚ) ≤ (E : ℚ) := by exact_mod_cast hE
      rw [if_pos hq, if_pos hE, allCombs_zero]
    · have hq : ¬ (1 : ℚ) ≤ (E : ℚ) := by
        intro hq; exact hE (by exact_mod_cast hq)
      have h0 : E.toNat = 0 := by omega
      rw [if_neg hq, if_neg hE, h0, randTrials]

/-- Every run of `permTest` with an empty group, case by case. -/
theorem permTest_empty_group_cases (rnd : Nat → Nat) (a b : List ℚ) (nIter : Int)
    (h : a = [] ∨ b = []) :
    (∀ st, permTestCounters rnd a b nIter = .ok st → st.numTrials = 0) ∧
    (a = [] → b = [] → nIter = 0 → permTest rnd a b nIter = .error .integerDivideByZero) ∧
    (a = [] → b = [] → nIter ≠ 0 → permTest rnd a b nIter = .ok .nan) ∧
    (a ++ b ≠ [] →
      1 ≤ (if nIter = 0 then (((30000000 / (a ++ b).length : Nat)) : Int) else nIter) →
      permTest rnd a b nIter = .error .indexOutOfRange) ∧
    (a ++ b ≠ [] →
      (if nIter = 0 then (((30000000 / (a ++ b).length : Nat)) : Int) else nIter) < 1 →
      permTest rnd a b nIter = .ok .nan) := by
  have hc := permTestCounters_empty rnd a b nIter h
  have heff : ∀ hne : a ++ b ≠ [], effectiveIter nIter (a ++ b).length =
      .ok (if nIter = 0 then (((30000000 / (a ++ b).length : Nat)) : Int) else nIter) := by
    intro hne
    have hpos : 0 < (a ++ b).length := List.length_pos.2 hne
    by_cases h0 : nIter = 0
    · subst h0; rw [effectiveIter_zero _ hpos]; simp
    · rw [effectiveIter_of_ne _ _ h0, if_neg h0]
  refine ⟨?_, ?_, ?_, ?_, ?_⟩
  · intro st hst
    rw [hc] at hst
    cases hE : effectiveIter nIter (a ++ b).length with
    | error e => rw [hE] at hst; cases hst
    | ok E =>
      rw [hE] at hst
      simp only at hst
      split at hst
      · split at hst
        · cases hst; rfl
        · cases hst
      · cases hst; rfl
  · intro ha hb h0
    subst ha hb h0
    simp [permTest, hc, effectiveIter]
  · intro ha hb h0
    subst ha hb
    by_cases h1 : 1 ≤ nIter <;>
      simp [permTest, hc, effectiveIter_of_ne _ _ h0, h1, FVal.div]
  · intro hne hE
    have hlen : (a ++ b).length ≠ 0 := (List.length_pos.2 hne).ne'
    simp only [permTest, hc, heff hne, if_pos hE, if_neg hlen]
  · intro hne hE
    have hE' : ¬ 1 ≤ (if nIter = 0 then (((30000000 / (a ++ b).length : Nat)) : Int) else nIter) := by
      omega
    simp only [permTest, hc, heff hne, if_neg hE']
    simp [FVal.div]

/-- C7 (amended): when group `a` or group `b` is empty, `permTest` validates nothing.  With
a negative requested count, or with the count 0 and more than 30,000,000 pooled numbers, it
scores no trial and returns NaN (`0/0`) instead of failing; with both groups empty and the
count 0 it panics with an integer division by zero. -/
theorem permTest_empty_group (rnd : Nat → Nat) (a b : List ℚ) (nIter : Int)
    (h : a = [] ∨ b = []) :
    (nIter < 0 →
      permTestCounters rnd a b nIter = .ok { numTrials := 0, numBigger := 0 } ∧
      permTest rnd a b nIter = .ok .nan) ∧
    (nIter = 0 → 30000000 < (a ++ b).length →
      permTestCounters rnd a b nIter = .ok { numTrials := 0, numBigger := 0 } ∧
      permTest rnd a b nIter = .ok .nan) ∧
    (nIter = 0 → a = [] → b = [] → permTest rnd a b nIter = .error .integerDivideByZero) := by
  have hc := permTestCounters_empty rnd a b nIter h
  have key : ∀ E : Int, effectiveIter nIter (a ++ b).length = .ok E → E < 1 →
      permTestCounters rnd a b nIter = .ok { numTrials := 0, numBigger := 0 } ∧
      permTest rnd a b nIter = .ok .nan := by
    intro E hE hlt
    have hc0 : permTestCounters rnd a b nIter = .ok { numTrials := 0, numBigger := 0 } := by
      rw [hc, hE]
      simp only
      rw [if_neg (by omega)]
    refine ⟨hc0, ?_⟩
    unfold permTest
    rw [hc0]
    simp [FVal.div]
  refine ⟨?_, ?_, ?_⟩
  · intro hneg
    exact key nIter (effectiveIter_of_ne _ _ (by omega)) (by omega)
  · intro h0 hbig
    subst h0
    refine key (((30000000 / (a ++ b).length : Nat)) : Int) (effectiveIter_zero _ (by omega)) ?_
    rw [Nat.div_eq_of_lt hbig]
    decide
  · intro h0 ha hb
    subst h0 ha hb
    simp [permTest, hc, effectiveIter]

/-- Counterexample to C7 as stated: with an empty first group and the requested count `-5`,
and also with both groups empty and 5 requested iterations, `permTest` returns NaN instead
of failing. -/
theorem permTest_empty_groups_returns_nan :
    permTest (fun _ => 0) [] [1] (-5) = .ok .nan ∧
    permTest (fun _ => 0) [] [] 5 = .ok .nan := by
  constructor
  · exact (permTest_empty_group_cases (fun _ => 0) [] [1] (-5) (Or.inl rfl)).2.2.2.2
      (by simp) (by decide)
  · exact (permTest_empty_group_cases (fun _ => 0) [] [] 5 (Or.inl rfl)).2.2.1 rfl rfl
      (by decide)

/-- Witness for C6 (amended) at `a = [1]`, `b = [2]`, `nIter = 1`. -/
theorem permTest_in_unit_interval_witness :
    ∃ (st : Counters) (p : ℚ), permTestCounters (fun _ => 0) [1] [2] 1 = .ok st ∧
      1 ≤ st.numTrials ∧ st.numBigger ≤ st.numTrials ∧
      permTest (fun _ => 0) [1] [2] 1 = .ok (.fin p) ∧ 0 ≤ p ∧ p ≤ 1 :=
  permTest_in_unit_interval (fun _ => 0) [1] [2] 1 (by simp) (by simp) (Or.inl (by decide))

/-- Witness for C7 (amended) at `a = []`, `b = [1]`, `nIter = -5`. -/
theorem permTest_empty_group_witness :
    permTestCounters (fun _ => 0) [] [1] (-5) = .ok { numTrials := 0, numBigger := 0 } ∧
    permTest (fun _ => 0) [] [1] (-5) = .ok .nan :=
  (permTest_empty_group (fun _ => 0) [] [1] (-5) (Or.inl rfl)).1 (by decide)

/-- Witness for C9 (amended) at `a = [1]`, `b = [2]`, `nIter = -3`. -/
theorem permTest_effective_iterations_witness :
    permTestCounters (fun _ => 0) [1] [2] (-3) = .ok { numTrials := 0, numBigger := 0 } :=
  (permTest_effective_iterations (fun _ => 0) [1] [2] (-3) (by simp) (by simp)).2.2 (by decide)

/-! ## `permTest` on perfectly separated groups -/

theorem combs_three_six : combs 3 0 6 =
    [[0, 1, 2], [0, 1, 3], [0, 1, 4], [0, 1, 5], [0, 2, 3], [0, 2, 4], [0, 2, 5], [0, 3, 4],
     [0, 3, 5], [0, 4, 5], [1, 2, 3], [1, 2, 4], [1, 2, 5], [1, 3, 4], [1, 3, 5], [1, 4, 5],
     [2, 3, 4], [2, 3, 5], [2, 4, 5], [3, 4, 5]] := by
  decide

theorem origDiff_separated :
    FVal.abs (FVal.sub (mean [0, 0, 0]) (mean [100, 100, 100])) = .fin 100 := by
  norm_num [mean, FVal.div, FVal.sub, FVal.abs]

theorem permTest_separated_value (rnd : Nat → Nat) (nIter : Int) (hN : 20 ≤ nIter) :
    permTest rnd [0, 0, 0] [100, 100, 100] nIter = .ok (.fin (1 / 10)) := by
  have hm : min [(0 : ℚ), 0, 0].length [(100 : ℚ), 100, 100].length = 3 := by decide
  have hsum : sum ([0, 0, 0] ++ [100, 100, 100]) = 300 := by norm_num [sum]
  have hch : Nat.choose 6 3 = 20 := by decide
  rw [permTest_exact rnd _ _ nIter (by simp) (by simp) (by rw [hm]; exact_mod_cast hN)]
  rw [hm, origDiff_separated, hsum]
  simp only [List.length_append, List.length_cons, List.length_nil, combs_three_six, hch]
  rw [combs_three_six]
  simp only [List.countP_cons, List.countP_nil, bigger, pick, List.map_cons, List.map_nil,
    List.sum_cons, List.sum_nil, List.cons_append, List.nil_append, List.length_cons,
    List.length_nil, List.getD_cons_zero, List.getD_cons_succ]
  have habs : |(100 : ℚ) / 3| = 100 / 3 := abs_of_pos (by norm_num)
  norm_num [FVal.div, FVal.sub, FVal.abs, FVal.ge, habs]

/-- C8 (amended): for the perfectly separated groups `[0,0,0]` and `[100,100,100]` run in
exact mode (at least 20 requested iterations), `permTest` returns exactly `2/20 = 1/10`:
the original partition and its mirror both reach the observed difference. -/
theorem permTest_separated (rnd : Nat → Nat) (nIter : Int) (hN : 20 ≤ nIter) :
    permTest rnd [0, 0, 0] [100, 100, 100] nIter = .ok (.fin (1 / 10)) :=
  permTest_separated_value rnd nIter hN

/-- Witness for C8 (amended) at 20 requested iterations. -/
theorem permTest_separated_witness :
    permTest (fun _ => 0) [0, 0, 0] [100, 100, 100] 20 = .ok (.fin (1 / 10)) :=
  permTest_separated (fun _ => 0) 20 (by decide)

/-- Counterexample to C8 as stated: with 20 requested iterations the result is not `1/20`. -/
theorem permTest_separated_ne_one_twentieth :
    permTest (fun _ => 0) [0, 0, 0] [100, 100, 100] 20 ≠ .ok (.fin (1 / 20)) := by
  rw [permTest_separated_value (fun _ => 0) 20 (by decide)]
  intro h
  injection h with h
  injection h with h
  norm_num at h

/-! ## Symmetry of `binom`, determinism, degenerate subset sizes -/

/-- C12: for all `n, m ≥ 0`, `binom(n, m) = binom(m, n)` in exact arithmetic, and
`binom(n, 0) = 1` for all `n ≥ 0`. -/
theorem binom_symm (n m : Nat) : binom n m = binom m n ∧ binom n 0 = 1 := by
  refine ⟨?_, ?_⟩
  · rw [binom_eq_choose, binom_eq_choose, Nat.add_comm m n, Nat.choose_symm_add]
  · rw [binom_eq_choose]; simp

/-- The program evaluated in exact arithmetic: exact mode determinism.  For non-empty groups
and `nIter ≥ C(|a|+|b|, m)`, `m = min(|a|, |b|)`, the evaluation of `permTest` over `ℚ` does
not depend on the random stream.  The binary64 program does not have this property; see the
last section. -/
theorem permTest_exact_deterministic (rnd1 rnd2 : Nat → Nat) (a b : List ℚ) (nIter : Int)
    (ha : a ≠ []) (hb : b ≠ [])
    (hN : ((a.length + b.length).choose (min a.length b.length) : Int) ≤ nIter) :
    permTest rnd1 a b nIter = permTest rnd2 a b nIter ∧
    ∃ p : ℚ, ∀ rnd, permTest rnd a b nIter = .ok (.fin p) := by
  refine ⟨?_, _, fun rnd => permTest_exact rnd a b nIter ha hb hN⟩
  rw [permTest_exact rnd1 a b nIter ha hb hN, permTest_exact rnd2 a b nIter ha hb hN]

theorem combs_eq_nil_of_lt (n m : Nat) (h : n < m) : combs m 0 n = [] := by
  apply List.eq_nil_of_length_eq_zero
  rw [combs_length, Nat.choose_eq_zero_of_lt h]

theorem allCombs_of_lt {σ : Type} (n m : Nat) (emit : List Nat → σ → Except Panic σ)
    (init : σ) (h : n < m) : allCombs n m emit init = .ok init := by
  rw [allCombs_eq_emitAll n m emit init (by omega), combs_eq_nil_of_lt n m h]
  rfl

theorem randComb_of_lt {σ : Type} (rnd : Nat → Nat) (pos n m : Nat)
    (emit : List Nat → σ → Except Panic σ) (init : σ) (h : n < m) :
    randComb rnd pos n m emit init = .error .intnInvalidArgument := by
  obtain ⟨k, rfl⟩ : ∃ k, m = k + 1 := ⟨m - 1, by omega⟩
  have hintn : intn rnd pos ((n : Int) - ((k + 1 : Nat) : Int) + 1) = .error .intnInvalidArgument := by
    unfold intn
    rw [if_pos (by omega)]
  unfold randComb
  rw [randLoop, randStep]
  simp only [hintn]

/-- C16 (amended): for `n ≥ 0` and `m > n`, `allCombs(n, m, emit)` returns normally without
calling `emit` (there is no combination to generate), while `randComb(n, m, emit)` fails with
a panic, raised by `rand.Intn` on a non-positive argument, before `emit` is called. -/
theorem subset_larger_than_universe (rnd : Nat → Nat) (pos n m : Nat) (h : n < m) :
    allCombs n m snapshot [] = .ok [] ∧
    randComb rnd pos n m snapshot [] = .error .intnInvalidArgument :=
  ⟨allCombs_of_lt n m snapshot [] h, randComb_of_lt rnd pos n m snapshot [] h⟩

/-- Counterexample to C16 as stated: `allCombs(2, 3, emit)` returns normally, having
emitted nothing; it does not fail. -/
theorem allCombs_two_three_returns :
    allCombs 2 3 snapshot [] = .ok [] ∧
    ¬ ∃ e, allCombs 2 3 snapshot [] = .error e := by
  have h : allCombs 2 3 snapshot [] = .ok [] := by rfl
  refine ⟨h, ?_⟩
  rintro ⟨e, he⟩
  rw [h] at he
  cases he

/-- C15, the code at the failing inputs: `allCombs(1, 0, emit)` panics with an index out of
range and `allCombs(0, 0, emit)` returns without calling `emit`, although `C(1, 0)` and
`C(0, 0)` are both 1. -/
theorem allCombs_zero_subset :
    allCombs 1 0 snapshot [] = .error .indexOutOfRange ∧
    allCombs 0 0 snapshot [] = .ok [] ∧
    Nat.choose 1 0 = 1 ∧ Nat.choose 0 0 = 1 := by
  refine ⟨by rfl, by rfl, by decide, by decide⟩

/-- The exact-arithmetic statement at `a = [1, 2]`, `b = [3]` and 3 requested iterations. -/
theorem permTest_exact_deterministic_witness :
    permTest (fun _ => 0) [1, 2] [3] 3 = permTest (fun p => p) [1, 2] [3] 3 ∧
    ∃ p : ℚ, ∀ rnd, permTest rnd [1, 2] [3] 3 = .ok (.fin p) :=
  permTest_exact_deterministic (fun _ => 0) (fun p => p) [1, 2] [3] 3 (by simp) (by simp)
    (by decide)

/-- Witness for C16 (amended) at `n = 2`, `m = 3`. -/
theorem subset_larger_than_universe_witness :
    allCombs 2 3 snapshot [] = .ok [] ∧
    randComb (fun _ => 0) 0 2 3 snapshot [] = .error .intnInvalidArgument :=
  subset_larger_than_universe (fun _ => 0) 0 2 3 (by decide)

/-! ## `permTest`: mode switch and trial count -/

theorem permTestCounters_unfold (rnd : Nat → Nat) (a b : List ℚ) (nIter E : Int)
    (hE : effectiveIter nIter (a ++ b).length = .ok E) :
    permTestCounters rnd a b nIter =
      if ((a.length + b.length).choose (min a.length b.length) : Int) ≤ E then
        allCombs (a ++ b).length (min a.length b.length)
          (countBigger (a ++ b) (sum (a ++ b)) (FVal.abs (FVal.sub (mean a) (mean b)))) ⟨0, 0⟩
      else
        randTrials rnd (a ++ b).length (min a.length b.length)
          (countBigger (a ++ b) (sum (a ++ b)) (FVal.abs (FVal.sub (mean a) (mean b))))
          E.toNat 0 ⟨0, 0⟩ := by
  unfold permTestCounters
  simp only [hE, binom_eq_choose_min]
  by_cases h : ((a.length + b.length).choose (min a.length b.length) : Int) ≤ E
  · have hq : (((a.length + b.length).choose (min a.length b.length) : Nat) : ℚ) ≤ (E : ℚ) := by
      exact_mod_cast h
    rw [if_pos h, if_pos hq]
  · have hq : ¬ (((a.length + b.length).choose (min a.length b.length) : Nat) : ℚ) ≤ (E : ℚ) := by
      intro hq; exact h (by exact_mod_cast hq)
    rw [if_neg h, if_neg hq]

theorem scoredSubsets_length (rnd : Nat → Nat) (a b : List ℚ) (E : Int) (hE : 0 ≤ E) :
    ((scoredSubsets rnd a b E).length : Int) =
      if ((a.length + b.length).choose (min a.length b.length) : Int) ≤ E then
        (((a.length + b.length).choose (min a.length b.length) : Nat) : Int)
      else E := by
  unfold scoredSubsets
  rw [binom_eq_choose_min]
  by_cases h : ((a.length + b.length).choose (min a.length b.length) : Int) ≤ E
  · have hq : (((a.length + b.length).choose (min a.length b.length) : Nat) : ℚ) ≤ (E : ℚ) := by
      exact_mod_cast h
    rw [if_pos h, if_pos hq, combs_length, List.length_append]
  · have hq : ¬ (((a.length + b.length).choose (min a.length b.length) : Nat) : ℚ) ≤ (E : ℚ) := by
      intro hq; exact h (by exact_mod_cast hq)
    rw [if_neg h, if_neg hq, trialBuffers_length]
    omega

/-- The program evaluated in exact arithmetic: mode switch and trial count.  The binary64
program does not have this property; see the last section.  For non-empty groups with pool
size `n`, `m = min(|a|, |b|)` and effective iteration count `E ≥ 1`: the count compared
against `E`,
`binom(|a|, |b|)`, equals `C(n, m)`; when `C(n, m) ≤ E` the run is the call
`allCombs(n, m, countBigger)`, otherwise it is the loop of exactly `E` calls
`randComb(n, m, countBigger)`; the number of scored trials is `C(n, m)` in the first case and
`E` in the second, so it is `min(C(n, m), E)` and never exceeds `E`. -/
theorem permTest_mode_switch (rnd : Nat → Nat) (a b : List ℚ) (nIter E : Int)
    (ha : a ≠ []) (hb : b ≠ []) (hE : effectiveIter nIter (a ++ b).length = .ok E)
    (hE1 : 1 ≤ E) :
    binom a.length b.length = (((a ++ b).length.choose (min a.length b.length) : Nat) : ℚ) ∧
    (((a ++ b).length.choose (min a.length b.length) : Int) ≤ E →
      permTestCounters rnd a b nIter =
        allCombs (a ++ b).length (min a.length b.length)
          (countBigger (a ++ b) (sum (a ++ b)) (FVal.abs (FVal.sub (mean a) (mean b)))) ⟨0, 0⟩) ∧
    (E < ((a ++ b).length.choose (min a.length b.length) : Int) →
      permTestCounters rnd a b nIter =
        randTrials rnd (a ++ b).length (min a.length b.length)
          (countBigger (a ++ b) (sum (a ++ b)) (FVal.abs (FVal.sub (mean a) (mean b))))
          E.toNat 0 ⟨0, 0⟩ ∧ (E.toNat : Int) = E) ∧
    ∃ st : Counters, permTestCounters rnd a b nIter = .ok st ∧
      (st.numTrials : Int) =
        (if ((a ++ b).length.choose (min a.length b.length) : Int) ≤ E then
          (((a ++ b).length.choose (min a.length b.length) : Nat) : Int) else E) ∧
      (st.numTrials : Int) ≤ E := by
  have hu := permTestCounters_unfold rnd a b nIter E hE
  have hl := scoredSubsets_length rnd a b E (by omega)
  have hc := permTestCounters_eq rnd a b nIter E ha hb hE
  simp only [List.length_append] at hu hc ⊢
  refine ⟨binom_eq_choose_min _ _, fun h => ?_, fun h => ⟨?_, by omega⟩, ?_⟩
  · rw [hu, if_pos h]
  · rw [hu, if_neg (by omega)]
  · refine ⟨_, hc, hl, ?_⟩
    simp only
    rw [hl]
    split <;> omega

/-- The exact-arithmetic statement at `a = [1, 2]`, `b = [3]`, `nIter = 2`. -/
theorem permTest_mode_switch_witness :
    binom 2 1 = ((([1, 2] ++ [3] : List ℚ).length.choose (min 2 1) : Nat) : ℚ) ∧
    (((([1, 2] ++ [3] : List ℚ).length.choose (min 2 1) : Nat) : Int) ≤ 2 →
      permTestCounters (fun _ => 0) [1, 2] [3] 2 =
        allCombs ([1, 2] ++ [3] : List ℚ).length (min 2 1)
          (countBigger ([1, 2] ++ [3]) (sum ([1, 2] ++ [3]))
            (FVal.abs (FVal.sub (mean [1, 2]) (mean [3])))) ⟨0, 0⟩) ∧
    ((2 : Int) < ((([1, 2] ++ [3] : List ℚ).length.choose (min 2 1) : Nat) : Int) →
      permTestCounters (fun _ => 0) [1, 2] [3] 2 =
        randTrials (fun _ => 0) ([1, 2] ++ [3] : List ℚ).length (min 2 1)
          (countBigger ([1, 2] ++ [3]) (sum ([1, 2] ++ [3]))
            (FVal.abs (FVal.sub (mean [1, 2]) (mean [3]))))
          (2 : Int).toNat 0 ⟨0, 0⟩ ∧ (((2 : Int).toNat : Nat) : Int) = 2) ∧
    ∃ st : Counters, permTestCounters (fun _ => 0) [1, 2] [3] 2 = .ok st ∧
      (st.numTrials : Int) =
        (if ((([1, 2] ++ [3] : List ℚ).length.choose (min 2 1) : Nat) : Int) ≤ 2 then
          ((([1, 2] ++ [3] : List ℚ).length.choose (min 2 1) : Nat) : Int) else 2) ∧
      (st.numTrials : Int) ≤ 2 :=
  permTest_mode_switch (fun _ => 0) [1, 2] [3] 2 2 (by simp) (by simp)
    (effectiveIter_of_ne 2 _ (by decide)) (by decide)

/-! ## `permTest` on groups with equal means -/

theorem min_pos_of_ne_nil (a b : List ℚ) (ha : a ≠ []) (hb : b ≠ []) :
    1 ≤ min a.length b.length ∧ min a.length b.length < (a ++ b).length := by
  have hla : 0 < a.length := List.length_pos.2 ha
  have hlb : 0 < b.length := List.length_pos.2 hb
  rw [List.length_append]
  unfold min
  split <;> omega

theorem trialBuffers_length_eq (rnd : Nat → Nat) (n m cnt pos : Nat) :
    ∀ c ∈ trialBuffers rnd n m cnt pos, c.length = m := by
  induction cnt generalizing pos with
  | zero => simp [trialBuffers]
  | succ cnt ih =>
    intro c hc
    rw [trialBuffers, List.mem_cons] at hc
    rcases hc with rfl | hc
    · exact floyd_length rnd pos (n - m) m
    · exact ih (pos + m) c hc

theorem scoredSubsets_length_eq (rnd : Nat → Nat) (a b : List ℚ) (E : Int) :
    ∀ c ∈ scoredSubsets rnd a b E, c.length = min a.length b.length := by
  intro c hc
  unfold scoredSubsets at hc
  split at hc
  · exact ((mem_combs _ _ _ _).1 hc).1
  · exact trialBuffers_length_eq rnd _ _ _ _ c hc

theorem effectiveIter_ok (nIter : Int) (n : Nat) (hn : 0 < n) :
    effectiveIter nIter n =
      .ok (if nIter = 0 then (((30000000 / n : Nat)) : Int) else nIter) := by
  by_cases h0 : nIter = 0
  · subst h0; rw [effectiveIter_zero _ hn]; simp
  · rw [effectiveIter_of_ne _ _ h0, if_neg h0]

theorem mean_of_ne_nil (a : List ℚ) (ha : a ≠ []) :
    mean a = .fin (a.sum / (a.length : ℚ)) := by
  have hla : 0 < a.length := List.length_pos.2 ha
  rw [mean_eq, FVal_div_of_ne]
  exact_mod_cast hla.ne'

theorem mean_eq_of_perm (a b : List ℚ) (h : a.Perm b) : mean a = mean b := by
  rw [mean_eq, mean_eq, h.sum_eq, h.length_eq]

theorem bigger_zero (a b : List ℚ) (ha : a ≠ []) (hb : b ≠ []) (sumBoth : ℚ) (c : List Nat)
    (hlen : c.length = min a.length b.length) :
    bigger (a ++ b) sumBoth (.fin 0) c = true := by
  obtain ⟨h1, h2⟩ := min_pos_of_ne_nil a b ha hb
  rw [← hlen] at h1 h2
  have hd1 : (((((a ++ b).length : Int) - (c.length : Int) : Int)) : ℚ) ≠ 0 := by
    have : (0 : Int) < ((a ++ b).length : Int) - (c.length : Int) := by omega
    exact_mod_cast this.ne'
  have hd2 : (c.length : ℚ) ≠ 0 := by exact_mod_cast (by omega : c.length ≠ 0)
  unfold bigger
  rw [FVal_div_of_ne _ _ hd1, FVal_div_of_ne _ _ hd2]
  simp [FVal.sub, FVal.abs, FVal.ge]

theorem countP_eq_length_of_all {α : Type} (p : α → Bool) (L : List α)
    (h : ∀ x ∈ L, p x = true) : L.countP p = L.length := by
  induction L with
  | nil => rfl
  | cons x L ih =>
    rw [List.countP_cons, ih (fun y hy => h y (List.mem_cons_of_mem _ hy)),
      h x (List.mem_cons_self _ _)]
    simp

/-- The program evaluated in exact arithmetic; the binary64 program does not have this
property, see the last section.  When the non-empty groups `a` and `b` are identical
multisets or, more generally, have equal means, the observed effect is 0, every scored trial
counts (so
`numBigger = numTrials`), and `permTest` returns exactly 1 as soon as one trial is scored, in
exact and in approximate mode, for every random stream. -/
theorem permTest_equal_means (rnd : Nat → Nat) (a b : List ℚ) (nIter : Int)
    (ha : a ≠ []) (hb : b ≠ []) (hmean : a.Perm b ∨ mean a = mean b) :
    FVal.abs (FVal.sub (mean a) (mean b)) = .fin 0 ∧
    ∃ st : Counters, permTestCounters rnd a b nIter = .ok st ∧
      st.numBigger = st.numTrials ∧
      (1 ≤ st.numTrials → permTest rnd a b nIter = .ok (.fin 1)) := by
  have hm : mean a = mean b := by
    rcases hmean with h | h
    · exact mean_eq_of_perm a b h
    · exact h
  have h0 : FVal.abs (FVal.sub (mean a) (mean b)) = .fin 0 := by
    rw [hm, mean_of_ne_nil b hb]
    simp [FVal.sub, FVal.abs]
  have hpos : 0 < (a ++ b).length := by
    have := (min_pos_of_ne_nil a b ha hb).2; omega
  have hc := permTestCounters_eq rnd a b nIter _ ha hb (effectiveIter_ok nIter _ hpos)
  rw [h0] at hc
  rw [countP_eq_length_of_all _ _ (fun c hc' =>
    bigger_zero a b ha hb _ c (scoredSubsets_length_eq rnd a b _ c hc'))] at hc
  refine ⟨h0, _, hc, rfl, ?_⟩
  intro h1
  simp only at h1
  unfold permTest
  rw [hc]
  simp only
  have hq : ((scoredSubsets rnd a b
      (if nIter = 0 then (((30000000 / (a ++ b).length : Nat)) : Int) else nIter)).length : ℚ) ≠ 0 := by
    exact_mod_cast (by omega : (scoredSubsets rnd a b
      (if nIter = 0 then (((30000000 / (a ++ b).length : Nat)) : Int) else nIter)).length ≠ 0)
  rw [FVal_div_of_ne _ _ hq, div_self hq]

/-- The exact-arithmetic statement at `a = [1, 3]`, `b = [3, 1]`, with the default iteration
count. -/
theorem permTest_equal_means_witness :
    FVal.abs (FVal.sub (mean [1, 3]) (mean [3, 1])) = .fin 0 ∧
    ∃ st : Counters, permTestCounters (fun _ => 0) [1, 3] [3, 1] 0 = .ok st ∧
      st.numBigger = st.numTrials ∧
      (1 ≤ st.numTrials → permTest (fun _ => 0) [1, 3] [3, 1] 0 = .ok (.fin 1)) :=
  permTest_equal_means (fun _ => 0) [1, 3] [3, 1] 0 (by simp) (by simp)
    (Or.inl (List.Perm.swap 3 1 []))

/-! ## The original grouping is always counted in exact mode -/

theorem pick_range_left (a b : List ℚ) : pick (a ++ b) (List.range a.length) = a.sum := by
  unfold pick
  congr 1
  apply List.ext_getElem
  · simp
  · intro i h1 h2
    simp only [List.getElem_map, List.getElem_range]
    rw [List.getD_eq_getElem?_getD, List.getElem?_append_left h2, List.getElem?_eq_getElem h2]
    rfl

theorem pick_range_right (a b : List ℚ) :
    pick (a ++ b) (List.range' a.length b.length) = b.sum := by
  unfold pick
  congr 1
  apply List.ext_getElem
  · simp
  · intro i h1 h2
    simp only [List.getElem_map, List.getElem_range']
    rw [List.getD_eq_getElem?_getD, List.getElem?_append_right (by omega),
      show a.length + 1 * i - a.length = i by omega, List.getElem?_eq_getElem h2]
    rfl

theorem origSubset_mem_combs (a b : List ℚ) :
    origSubset a b ∈ combs (min a.length b.length) 0 (a ++ b).length := by
  rw [mem_combs, List.length_append]
  unfold origSubset min
  split
  · refine ⟨by simp, ?_, fun x hx => ?_⟩
    · exact (List.pairwise_lt_range _)
    · have := List.mem_range.1 hx; omega
  · refine ⟨by simp, ?_, fun x hx => ?_⟩
    · exact List.pairwise_lt_range' _ _
    · have := List.mem_range'_1.1 hx; omega

theorem origSubset_means (a b : List ℚ) (ha : a ≠ []) (hb : b ≠ []) :
    FVal.abs (FVal.sub
        (FVal.div (sum (a ++ b) - pick (a ++ b) (origSubset a b))
          (((((a ++ b).length : Int) - ((origSubset a b).length : Int) : Int)) : ℚ))
        (FVal.div (pick (a ++ b) (origSubset a b)) ((origSubset a b).length : ℚ)))
      = FVal.abs (FVal.sub (mean a) (mean b)) := by
  have hla : 0 < a.length := List.length_pos.2 ha
  have hlb : 0 < b.length := List.length_pos.2 hb
  have hda : (a.length : ℚ) ≠ 0 := by exact_mod_cast hla.ne'
  have hdb : (b.length : ℚ) ≠ 0 := by exact_mod_cast hlb.ne'
  have hsum : sum (a ++ b) = a.sum + b.sum := by rw [sum_eq, List.sum_append]
  rw [mean_of_ne_nil a ha, mean_of_ne_nil b hb, hsum]
  unfold origSubset
  split
  · rw [pick_range_left, List.length_range, List.length_append]
    have h1 : ((((a.length + b.length : Nat) : Int) - (a.length : Int) : Int) : ℚ)
        = (b.length : ℚ) := by push_cast; ring
    rw [h1, FVal_div_of_ne _ _ hdb, FVal_div_of_ne _ _ hda]
    simp only [FVal.sub, FVal.abs]
    rw [add_sub_cancel_left, abs_sub_comm]
  · rw [pick_range_right, List.length_range', List.length_append]
    have h1 : ((((a.length + b.length : Nat) : Int) - (b.length : Int) : Int) : ℚ)
        = (a.length : ℚ) := by push_cast; ring
    rw [h1, FVal_div_of_ne _ _ hda, FVal_div_of_ne _ _ hdb]
    simp only [FVal.sub, FVal.abs]
    rw [add_sub_cancel_right]

theorem FVal_ge_self_fin (q : ℚ) : FVal.ge (.fin q) (.fin q) = true := by
  simp [FVal.ge]

theorem bigger_origSubset (a b : List ℚ) (ha : a ≠ []) (hb : b ≠ []) :
    bigger (a ++ b) (sum (a ++ b)) (FVal.abs (FVal.sub (mean a) (mean b))) (origSubset a b)
      = true := by
  unfold bigger
  rw [origSubset_means a b ha hb, mean_of_ne_nil a ha, mean_of_ne_nil b hb]
  simp [FVal.sub, FVal.abs, FVal.ge]

/-- The program evaluated in exact arithmetic; the binary64 program does not have this
property, see the last section.  In exact mode the result is never 0: for non-empty groups and
`nIter ≥ C(|a|+|b|, m)`, `m = min(|a|, |b|)`, the enumeration of `allCombs` contains the
index subset of the smaller group, that trial has `|mean1 - mean2| = |mean(a) - mean(b)|` in
exact arithmetic and is counted, so `permTest` returns a value `p ≥ 1 / C(|a|+|b|, m) > 0`. -/
theorem permTest_exact_pos (rnd : Nat → Nat) (a b : List ℚ) (nIter : Int)
    (ha : a ≠ []) (hb : b ≠ [])
    (hN : ((a.length + b.length).choose (min a.length b.length) : Int) ≤ nIter) :
    (∃ L : List (List Nat),
      allCombs (a ++ b).length (min a.length b.length) snapshot [] = .ok L ∧
      origSubset a b ∈ L) ∧
    FVal.abs (FVal.sub
        (FVal.div (sum (a ++ b) - pick (a ++ b) (origSubset a b))
          (((((a ++ b).length : Int) - ((origSubset a b).length : Int) : Int)) : ℚ))
        (FVal.div (pick (a ++ b) (origSubset a b)) ((origSubset a b).length : ℚ)))
      = FVal.abs (FVal.sub (mean a) (mean b)) ∧
    (∀ st : Counters, ∃ st1 : Counters,
      countBigger (a ++ b) (sum (a ++ b)) (FVal.abs (FVal.sub (mean a) (mean b)))
        (origSubset a b) st = .ok st1 ∧ st1.numBigger = st.numBigger + 1) ∧
    ∃ p : ℚ, permTest rnd a b nIter = .ok (.fin p) ∧
      1 / ((a.length + b.length).choose (min a.length b.length) : ℚ) ≤ p ∧ 0 < p := by
  have hmem := origSubset_mem_combs a b
  have hbig := bigger_origSubset a b ha hb
  have hm := (min_pos_of_ne_nil a b ha hb).1
  have hchoose : (0 : ℚ) < ((a.length + b.length).choose (min a.length b.length) : ℚ) := by
    exact_mod_cast choose_min_pos a.length b.length
  have hcount : 1 ≤ (combs (min a.length b.length) 0 (a ++ b).length).countP
      (bigger (a ++ b) (sum (a ++ b)) (FVal.abs (FVal.sub (mean a) (mean b)))) :=
    List.countP_pos_iff.2 ⟨_, hmem, hbig⟩
  refine ⟨⟨_, ?_, hmem⟩, origSubset_means a b ha hb, fun st => ?_, _,
    permTest_exact rnd a b nIter ha hb hN, ?_, ?_⟩
  · rw [allCombs_eq_emitAll _ _ _ _ hm, emitAll_snapshot, List.nil_append]
  · refine ⟨_, countBigger_eq _ _ _ _ ?_ st, ?_⟩
    · intro i hi
      have := ((mem_combs _ _ _ _).1 hmem).2.2 i hi
      omega
    · simp [hbig]
  · have hlen : (a ++ b).length = a.length + b.length := List.length_append a b
    rw [hlen] at hcount ⊢
    exact div_le_div_of_nonneg_right (by exact_mod_cast hcount) hchoose.le
  · have hlen : (a ++ b).length = a.length + b.length := List.length_append a b
    rw [hlen] at hcount ⊢
    exact div_pos (by exact_mod_cast hcount) hchoose

/-- The exact-arithmetic statement at `a = [1, 2]`, `b = [3]` and 3 requested iterations. -/
theorem permTest_exact_pos_witness :
    ∃ p : ℚ, permTest (fun _ => 0) [1, 2] [3] 3 = .ok (.fin p) ∧
      1 / ((([1, 2] : List ℚ).length + ([3] : List ℚ).length).choose
        (min ([1, 2] : List ℚ).length ([3] : List ℚ).length) : ℚ) ≤ p ∧ 0 < p :=
  (permTest_exact_pos (fun _ => 0) [1, 2] [3] 3 (by simp) (by simp) (by decide)).2.2.2

/-! ## Swapping the groups -/

theorem swapIdx_swapIdx (la lb i : Nat) : swapIdx lb la (swapIdx la lb i) = i := by
  unfold swapIdx
  split_ifs <;> omega

theorem swapIdx_injective (la lb : Nat) : Function.Injective (swapIdx la lb) :=
  Function.LeftInverse.injective (swapIdx_swapIdx la lb)

theorem swapIdx_lt (la lb i : Nat) (h : i < la + lb) : swapIdx la lb i < lb + la := by
  unfold swapIdx
  split_ifs <;> omega

theorem getD_swapIdx (a b : List ℚ) (i : Nat) (h : i < (a ++ b).length) :
    (b ++ a).getD (swapIdx a.length b.length i) 0 = (a ++ b).getD i 0 := by
  rw [List.length_append] at h
  simp only [List.getD_eq_getElem?_getD]
  unfold swapIdx
  split_ifs with h1
  · rw [List.getElem?_append_right (by omega), List.getElem?_append_left h1]
    congr 2; omega
  · rw [List.getElem?_append_left (by omega), List.getElem?_append_right (by omega)]

theorem FVal_abs_sub_comm (x y : FVal) : FVal.abs (FVal.sub x y) = FVal.abs (FVal.sub y x) := by
  cases x <;> cases y <;> simp [FVal.sub, FVal.abs, abs_sub_comm]

theorem min_comm_len (x y : Nat) : min x y = min y x := by
  unfold min
  split_ifs <;> omega

theorem sum_append_comm (a b : List ℚ) : sum (a ++ b) = sum (b ++ a) := by
  rw [sum_eq, sum_eq, List.sum_append, List.sum_append, add_comm]

theorem bigger_eq_biggerOfSum (both : List ℚ) (sumBoth : ℚ) (origDiff : FVal) (m : Nat)
    (c : List Nat) (hnd : c.Nodup) (hlen : c.length = m) :
    bigger both sumBoth origDiff c =
      decide (biggerOfSum both.length m sumBoth origDiff
        (∑ i in c.toFinset, both.getD i 0) = true) := by
  unfold bigger biggerOfSum
  rw [← pick_eq_sum both c hnd, hlen]
  simp

theorem image_swap_mem (a b : List ℚ) (m : Nat) (Q : ℚ → Bool) (T : Finset Nat)
    (hT : T ∈ ((Finset.range (a ++ b).length).powersetCard m).filter
      (fun T => Q (∑ i in T, (a ++ b).getD i 0) = true)) :
    T.image (swapIdx a.length b.length) ∈
      ((Finset.range (b ++ a).length).powersetCard m).filter
        (fun T => Q (∑ i in T, (b ++ a).getD i 0) = true) := by
  rw [Finset.mem_filter, Finset.mem_powersetCard] at hT ⊢
  obtain ⟨⟨hsub, hcard⟩, hQ⟩ := hT
  refine ⟨⟨?_, ?_⟩, ?_⟩
  · intro j hj
    obtain ⟨i, hi, rfl⟩ := Finset.mem_image.1 hj
    have := Finset.mem_range.1 (hsub hi)
    rw [List.length_append] at this
    rw [Finset.mem_range, List.length_append]
    exact swapIdx_lt _ _ i this
  · rw [Finset.card_image_of_injective _ (swapIdx_injective _ _), hcard]
  · rw [Finset.sum_image (fun x _ y _ h => swapIdx_injective _ _ h)]
    rw [Finset.sum_congr rfl (fun i hi => getD_swapIdx a b i (Finset.mem_range.1 (hsub hi)))]
    exact hQ

theorem card_filter_swap (a b : List ℚ) (m : Nat) (Q : ℚ → Bool) :
    (((Finset.range (a ++ b).length).powersetCard m).filter
        (fun T => Q (∑ i in T, (a ++ b).getD i 0) = true)).card =
    (((Finset.range (b ++ a).length).powersetCard m).filter
        (fun T => Q (∑ i in T, (b ++ a).getD i 0) = true)).card := by
  apply Finset.card_bij (fun T _ => T.image (swapIdx a.length b.length))
  · intro T hT
    exact image_swap_mem a b m Q T hT
  · intro T1 _ T2 _ h
    exact Finset.image_injective (swapIdx_injective _ _) h
  · intro T hT
    refine ⟨T.image (swapIdx b.length a.length), image_swap_mem b a m Q T hT, ?_⟩
    rw [Finset.image_image]
    have : swapIdx a.length b.length ∘ swapIdx b.length a.length = id := by
      funext i
      exact swapIdx_swapIdx b.length a.length i
    rw [this, Finset.image_id]

theorem countP_bigger_swap (a b : List ℚ) :
    (combs (min a.length b.length) 0 (a ++ b).length).countP
        (bigger (a ++ b) (sum (a ++ b)) (FVal.abs (FVal.sub (mean a) (mean b)))) =
    (combs (min b.length a.length) 0 (b ++ a).length).countP
        (bigger (b ++ a) (sum (b ++ a)) (FVal.abs (FVal.sub (mean b) (mean a)))) := by
  have hlen : (b ++ a).length = (a ++ b).length := by
    rw [List.length_append, List.length_append, Nat.add_comm]
  have h1 := countP_combs_eq_card (a ++ b).length (min a.length b.length)
    (bigger (a ++ b) (sum (a ++ b)) (FVal.abs (FVal.sub (mean a) (mean b))))
    (fun T => biggerOfSum (a ++ b).length (min a.length b.length) (sum (a ++ b))
      (FVal.abs (FVal.sub (mean a) (mean b))) (∑ i in T, (a ++ b).getD i 0) = true)
    (fun c hc => by
      rw [mem_combs] at hc
      exact bigger_eq_biggerOfSum _ _ _ _ c hc.2.1.nodup hc.1)
  have h2 := countP_combs_eq_card (b ++ a).length (min a.length b.length)
    (bigger (b ++ a) (sum (b ++ a)) (FVal.abs (FVal.sub (mean b) (mean a))))
    (fun T => biggerOfSum (a ++ b).length (min a.length b.length) (sum (a ++ b))
      (FVal.abs (FVal.sub (mean a) (mean b))) (∑ i in T, (b ++ a).getD i 0) = true)
    (fun c hc => by
      rw [mem_combs] at hc
      rw [bigger_eq_biggerOfSum _ _ _ _ c hc.2.1.nodup hc.1, hlen, sum_append_comm b a,
        FVal_abs_sub_comm (mean b) (mean a)])
  rw [h1, min_comm_len b.length a.length, h2]
  exact card_filter_swap a b (min a.length b.length)
    (biggerOfSum (a ++ b).length (min a.length b.length) (sum (a ++ b))
      (FVal.abs (FVal.sub (mean a) (mean b))))

/-- The program evaluated in exact arithmetic; the binary64 program does not have this
property, see the last section.  Swapping the groups does not change the result: for
non-empty groups and
`nIter ≥ C(|a|+|b|, m)`, `m = min(|a|, |b|)`, `permTest(a, b, nIter) = permTest(b, a, nIter)`
in exact arithmetic, although the pools `a ++ b` and `b ++ a` differ. -/
theorem permTest_swap (rnd : Nat → Nat) (a b : List ℚ) (nIter : Int)
    (ha : a ≠ []) (hb : b ≠ [])
    (hN : ((a.length + b.length).choose (min a.length b.length) : Int) ≤ nIter) :
    permTest rnd a b nIter = permTest rnd b a nIter := by
  have hN' : ((b.length + a.length).choose (min b.length a.length) : Int) ≤ nIter := by
    rw [Nat.add_comm, min_comm_len]; exact hN
  have hlen : (b ++ a).length = (a ++ b).length := by
    rw [List.length_append, List.length_append, Nat.add_comm]
  rw [permTest_exact rnd a b nIter ha hb hN, permTest_exact rnd b a nIter hb ha hN',
    countP_bigger_swap a b, hlen, min_comm_len b.length a.length]

/-- The exact-arithmetic statement at `a = [1, 2]`, `b = [3]` and 3 requested iterations. -/
theorem permTest_swap_witness :
    permTest (fun _ => 0) [1, 2] [3] 3 = permTest (fun _ => 0) [3] [1, 2] 3 :=
  permTest_swap (fun _ => 0) [1, 2] [3] 3 (by simp) (by simp) (by decide)

/-! ## `median.go`: `medianIndices`, `median` and `mode` -/

theorem medianIndices_facts (n : Nat) (hn : 0 < n) :
    0 ≤ (medianIndices n).1 ∧ (medianIndices n).1 ≤ (medianIndices n).2 ∧
    (medianIndices n).2 < n ∧ (medianIndices n).1 + (medianIndices n).2 = (n : Int) - 1 ∧
    (n % 2 = 1 → (medianIndices n).1 = (((n - 1) / 2 : Nat) : Int) ∧
      (medianIndices n).2 = (((n - 1) / 2 : Nat) : Int)) ∧
    (n % 2 = 0 → (medianIndices n).1 = ((n / 2 - 1 : Nat) : Int) ∧
      (medianIndices n).2 = ((n / 2 : Nat) : Int)) := by
  have h1 : Int.tmod (n : Int) 2 = (n : Int) % 2 := Int.tmod_eq_emod (by omega) (by omega)
  have h2 : Int.tdiv (n : Int) 2 = (n : Int) / 2 := Int.tdiv_eq_ediv (by omega) (by omega)
  have h3 : Int.tdiv ((n : Int) - 1) 2 = ((n : Int) - 1) / 2 :=
    Int.tdiv_eq_ediv (by omega) (by omega)
  unfold medianIndices
  rw [h1, h2, h3]
  split <;> simp only <;> omega

theorem index_of_lt (nums : List ℚ) (k : Nat) (hk : k < nums.length) :
    index nums (k : Int) = .ok (nums.getD k 0) := by
  unfold index
  rw [if_pos (by omega), Int.toNat_ofNat, List.get?_eq_getElem?, List.getElem?_eq_getElem hk,
    List.getD_eq_getElem?_getD, List.getElem?_eq_getElem hk]
  rfl

/-- The indices of `medianIndices`, and `median` evaluated in exact arithmetic (the binary64
`median` differs on subnormal numbers, see the last section).  For every non-empty list
`nums` of length `n`, `medianIndices(n)` returns indices
`(x, y)` with `0 ≤ x ≤ y < n` and `x + y = n - 1`; for odd `n`, `x = y` and `median(nums)` is
the single central value; for even `n`, `y = x + 1` and `median(nums)` is the average of the
two central values. -/
theorem median_central (nums : List ℚ) (hne : nums ≠ []) :
    0 ≤ (medianIndices nums.length).1 ∧
    (medianIndices nums.length).1 ≤ (medianIndices nums.length).2 ∧
    (medianIndices nums.length).2 < nums.length ∧
    (medianIndices nums.length).1 + (medianIndices nums.length).2 = (nums.length : Int) - 1 ∧
    (nums.length % 2 = 1 →
      (medianIndices nums.length).1 = (medianIndices nums.length).2 ∧
      median nums = .ok (nums.getD ((nums.length - 1) / 2) 0)) ∧
    (nums.length % 2 = 0 →
      (medianIndices nums.length).2 = (medianIndices nums.length).1 + 1 ∧
      median nums =
        .ok ((nums.getD (nums.length / 2 - 1) 0 + nums.getD (nums.length / 2) 0) / 2)) := by
  have hn : 0 < nums.length := List.length_pos.2 hne
  obtain ⟨h1, h2, h3, h4, hodd, heven⟩ := medianIndices_facts nums.length hn
  refine ⟨h1, h2, h3, h4, fun h => ?_, fun h => ?_⟩
  · obtain ⟨hx, hy⟩ := hodd h
    refine ⟨by rw [hx, hy], ?_⟩
    unfold median
    simp only [hx, hy]
    rw [index_of_lt nums _ (by omega)]
    simp only
    congr 1
    ring
  · obtain ⟨hx, hy⟩ := heven h
    refine ⟨by rw [hx, hy]; omega, ?_⟩
    unfold median
    simp only [hx, hy]
    rw [index_of_lt nums _ (by omega), index_of_lt nums _ (by omega)]
    simp only
    congr 1
    ring

theorem count_snoc_self (P : List ℚ) (f : ℚ) : (P ++ [f]).count f = P.count f + 1 := by
  rw [List.count_append, List.count_singleton_self]

theorem count_snoc_of_ne (P : List ℚ) (f w : ℚ) (hw : w ≠ f) :
    (P ++ [f]).count w = P.count w := by
  have h0 : [f].count w = 0 := List.count_eq_zero.2 (by simp [hw])
  rw [List.count_append, h0, Nat.add_zero]

theorem modeInv_step (P : List ℚ) (st : ModeState) (f : ℚ) (h : ModeInv P st) :
    ModeInv (P ++ [f]) (modeStep st f) := by
  obtain ⟨hcount, hmax⟩ := h
  have hc1 : ∀ w, Function.update st.count f (st.count f + 1) w = ((P ++ [f]).count w : Int) := by
    intro w
    by_cases hw : w = f
    · subst hw
      rw [Function.update_same, hcount, count_snoc_self]
      push_cast; ring
    · rw [Function.update_noteq hw, hcount, count_snoc_of_ne P f w hw]
  have hcf := count_snoc_self P f
  have hf := hcount f
  unfold modeStep
  simp only
  split
  · rename_i hgt
    rw [Function.update_same] at hgt
    refine ⟨hc1, Or.inr ⟨by simp, ?_, ?_, P.length + 1, by simp, ?_, ?_⟩⟩
    · simp only [Function.update_same]; omega
    · intro w
      simp only [Function.update_same]
      by_cases hw : w = f
      · subst hw; omega
      · rw [count_snoc_of_ne P f w hw]
        rcases hmax with ⟨hP, hm⟩ | ⟨_, _, hle, _⟩
        · subst hP; simp at hf ⊢; omega
        · have := hle w; omega
    · simp only [Function.update_same]
      rw [List.take_of_length_le (by simp), hcf, hf]
      push_cast; ring
    · intro w hw
      simp only [Function.update_same] at hw ⊢
      rw [List.take_of_length_le (by simp), count_snoc_of_ne P f w hw]
      rcases hmax with ⟨hP, hm⟩ | ⟨_, _, hle, _⟩
      · subst hP; simp at hf ⊢; omega
      · have := hle w; omega
  · rename_i hgt
    rw [Function.update_same] at hgt
    rcases hmax with ⟨hP, hm⟩ | ⟨hP, h1, hle, p, hp, hpm, hpw⟩
    · exfalso; apply hgt; rw [hm, hf]; omega
    · refine ⟨hc1, Or.inr ⟨by simp, h1, ?_, p, by simp; omega, ?_, ?_⟩⟩
      · intro w
        simp only
        by_cases hw : w = f
        · subst hw; omega
        · rw [count_snoc_of_ne P f w hw]; exact hle w
      · simp only
        rw [List.take_append_of_le_length hp]; exact hpm
      · intro w hw
        simp only at hw ⊢
        rw [List.take_append_of_le_length hp]; exact hpw w hw

theorem modeInv_foldl (nums : List ℚ) :
    ModeInv nums (nums.foldl modeStep { mode := 0, count := fun _ => 0, maxCount := -1 }) := by
  induction nums using List.reverseRecOn with
  | nil => exact ⟨fun w => by simp, Or.inl ⟨rfl, rfl⟩⟩
  | append_singleton P f ih =>
    rw [List.foldl_append]
    exact modeInv_step P _ f ih

/-- C14: for every non-empty list `nums`, `mode(nums)` is an element `v` of `nums` whose
number of occurrences `k` is maximal, and `v` is the first value to reach `k` occurrences in
a left-to-right scan: some prefix of `nums` already holds all `k` occurrences of `v` while
every other value occurs fewer than `k` times in it. -/
theorem mode_spec (nums : List ℚ) (hne : nums ≠ []) :
    mode nums ∈ nums ∧
    (∀ w, nums.count w ≤ nums.count (mode nums)) ∧
    ∃ p, p ≤ nums.length ∧ (nums.take p).count (mode nums) = nums.count (mode nums) ∧
      ∀ w, w ≠ mode nums → (nums.take p).count w < nums.count (mode nums) := by
  obtain ⟨-, hmax⟩ := modeInv_foldl nums
  rcases hmax with ⟨hP, -⟩ | ⟨-, h1, hle, p, hp, hpm, hpw⟩
  · exact absurd hP hne
  · have hv : (mode nums) = (nums.foldl modeStep
        { mode := 0, count := fun _ => 0, maxCount := -1 }).mode := rfl
    rw [← hv] at hpm hpw
    have hsub : (nums.take p).count (mode nums) ≤ nums.count (mode nums) :=
      (List.take_sublist p nums).count_le _
    have hk := hle (mode nums)
    have hcnt : ((nums.count (mode nums) : Nat) : Int)
        = (nums.foldl modeStep { mode := 0, count := fun _ => 0, maxCount := -1 }).maxCount := by
      omega
    refine ⟨?_, fun w => ?_, p, hp, by omega, fun w hw => ?_⟩
    · exact List.count_pos_iff.1 (by omega)
    · have := hle w; omega
    · have := hpw w hw; omega

/-- A tie: 1 and 2 both occur twice in `[1, 2, 2, 1]`; 2 reaches two occurrences first. -/
theorem mode_tie_example : mode [1, 2, 2, 1] = 2 := by
  simp [mode, modeStep, Function.update]

/-- The median of an even-length list is the average of its two central values. -/
theorem median_example : median [1, 2, 4, 8] = .ok 3 := by
  have h2 : Int.toNat 2 = 2 := rfl
  norm_num [median, medianIndices, index, Int.tmod, Int.tdiv, h2]

/-- The exact-arithmetic statement at `nums = [1, 2, 4, 8]`. -/
theorem median_central_witness :
    (medianIndices ([1, 2, 4, 8] : List ℚ).length).2
      = (medianIndices ([1, 2, 4, 8] : List ℚ).length).1 + 1 ∧
    median [1, 2, 4, 8] =
      .ok ((([1, 2, 4, 8] : List ℚ).getD (([1, 2, 4, 8] : List ℚ).length / 2 - 1) 0
        + ([1, 2, 4, 8] : List ℚ).getD (([1, 2, 4, 8] : List ℚ).length / 2) 0) / 2) :=
  (median_central [1, 2, 4, 8] (by simp)).2.2.2.2.2 (by decide)

/-- Witness for C14 at `nums = [1, 2, 2, 1]`. -/
theorem mode_spec_witness :
    mode [1, 2, 2, 1] ∈ ([1, 2, 2, 1] : List ℚ) ∧
    (∀ w, ([1, 2, 2, 1] : List ℚ).count w ≤ ([1, 2, 2, 1] : List ℚ).count (mode [1, 2, 2, 1])) ∧
    ∃ p, p ≤ ([1, 2, 2, 1] : List ℚ).length ∧
      (([1, 2, 2, 1] : List ℚ).take p).count (mode [1, 2, 2, 1])
        = ([1, 2, 2, 1] : List ℚ).count (mode [1, 2, 2, 1]) ∧
      ∀ w, w ≠ mode [1, 2, 2, 1] →
        (([1, 2, 2, 1] : List ℚ).take p).count w
          < ([1, 2, 2, 1] : List ℚ).count (mode [1, 2, 2, 1]) :=
  mode_spec [1, 2, 2, 1] (by simp)

/-! ## The program in binary64

Runs of the binary64 program on concrete inputs.  Each run is computed inside the logic, by
evaluating the definitions whose names end in `64`.  In exact mode the random stream is not
read, so those runs are stated for every stream; a sampled run is replayed on a constant
stream, for which all trials score the same subset. -/

set_option maxRecDepth 100000
set_option exponentiation.threshold 4000

/-! ### Exact mode and sampled mode -/

theorem permTestCounters64_exact (rnd : Nat → Nat) (a b : List F64) (nIter E : Int)
    (hE : effectiveIter nIter (a ++ b).length = .ok E)
    (hmode : F64.le (binom64 a.length b.length) (F64.ofInt E) = true) :
    permTestCounters64 rnd a b nIter = permTestCounters64 (fun _ => 0) a b nIter := by
  unfold permTestCounters64
  simp only [hE, hmode, if_true]

theorem permTest64_exact (rnd : Nat → Nat) (a b : List F64) (nIter E : Int)
    (hE : effectiveIter nIter (a ++ b).length = .ok E)
    (hmode : F64.le (binom64 a.length b.length) (F64.ofInt E) = true) :
    permTest64 rnd a b nIter = permTest64 (fun _ => 0) a b nIter := by
  unfold permTest64
  rw [permTestCounters64_exact rnd a b nIter E hE hmode]

theorem permTest64_of_counters (rnd : Nat → Nat) (a b : List F64) (nIter : Int) (st : Counters)
    (h : permTestCounters64 rnd a b nIter = .ok st) :
    permTest64 rnd a b nIter
      = .ok (F64.div (F64.ofInt (st.numBigger : Int)) (F64.ofInt (st.numTrials : Int))) := by
  unfold permTest64
  rw [h]

theorem permTestCounters64_sampled (rnd : Nat → Nat) (a b : List F64) (nIter E : Int)
    (hE : effectiveIter nIter (a ++ b).length = .ok E)
    (hmode : F64.le (binom64 a.length b.length) (F64.ofInt E) = false) :
    permTestCounters64 rnd a b nIter =
      randTrials rnd (a ++ b).length (min a.length b.length)
        (countBigger64 (a ++ b) (sum64 (a ++ b)) (F64.abs (F64.sub (mean64 a) (mean64 b))))
        E.toNat 0 { numTrials := 0, numBigger := 0 } := by
  unfold permTestCounters64
  simp only [hE, hmode]
  rfl

theorem permTest_exact_nine (rnd : Nat → Nat) :
    permTest rnd [9] [1, 4, 6] 4 = .ok (.fin (1 / 2)) := by
  have hm : min [(9 : ℚ)].length [(1 : ℚ), 4, 6].length = 1 := by decide
  have hsum : sum ([9] ++ [1, 4, 6]) = 20 := by norm_num [sum]
  have hch : Nat.choose 4 1 = 4 := by decide
  have hcombs : combs 1 0 4 = [[0], [1], [2], [3]] := by decide
  have h163 : |(16 : ℚ) / 3| = 16 / 3 := abs_of_pos (by norm_num)
  have hod : FVal.abs (FVal.sub (mean [9]) (mean [1, 4, 6])) = .fin (16 / 3) := by
    norm_num [mean, FVal.div, FVal.sub, FVal.abs, h163]
  rw [permTest_exact rnd _ _ 4 (by simp) (by simp) (by rw [hm]; decide)]
  rw [hm, hod, hsum]
  simp only [List.length_append, List.length_cons, List.length_nil, hch]
  rw [hcombs]
  simp only [List.countP_cons, List.countP_nil, bigger, pick, List.map_cons, List.map_nil,
    List.sum_cons, List.sum_nil, List.cons_append, List.nil_append, List.length_cons,
    List.length_nil, List.getD_cons_zero, List.getD_cons_succ]
  have h43 : |(4 : ℚ) / 3| = 4 / 3 := abs_of_pos (by norm_num)
  norm_num [FVal.div, FVal.sub, FVal.abs, FVal.ge, h163, h43]

theorem bruteForce_nine : bruteForce [9] [1, 4, 6] = 1 / 2 := by
  have h := permTest_exact_eq_bruteForce (fun _ => 0) [9] [1, 4, 6] 4 (by simp) (by simp)
    (by decide)
  rw [permTest_exact_nine] at h
  injection h with h
  injection h with h
  exact h.symm

/-! ### A sampled run on a constant stream -/

theorem floyd_const (k pos j m : Nat) :
    floyd (fun _ => k) pos j m = floyd (fun _ => k) 0 j m := by
  induction m with
  | zero => rfl
  | succ m ih => simp only [floyd, ih]

theorem trialBuffers_const (k n m cnt pos : Nat) :
    trialBuffers (fun _ => k) n m cnt pos
      = List.replicate cnt (floyd (fun _ => k) 0 (n - m) m) := by
  induction cnt generalizing pos with
  | zero => rfl
  | succ cnt ih => rw [trialBuffers, ih, floyd_const, List.replicate_succ]

theorem emitAll_replicate (emit : List Nat → Counters → Except Panic Counters) (c : List Nat)
    (d : Nat)
    (h : ∀ st, emit c st = .ok { numTrials := st.numTrials + 1, numBigger := st.numBigger + d })
    (cnt : Nat) (st : Counters) :
    emitAll emit (List.replicate cnt c) st
      = .ok { numTrials := st.numTrials + cnt, numBigger := st.numBigger + cnt * d } := by
  induction cnt generalizing st with
  | zero => simp [emitAll]
  | succ cnt ih =>
    rw [List.replicate_succ, emitAll, h]
    simp only
    rw [ih]
    simp only [Counters.mk.injEq, Except.ok.injEq]
    constructor
    · omega
    · rw [Nat.succ_mul]; omega

theorem countBigger64_eq (both : List F64) (sumBoth origDiff : F64) (c : List Nat)
    (s1 s2 : F64) (h : sumLoop64 both c (sumBoth, F64.ofInt 0) = .ok (s1, s2)) (st : Counters) :
    countBigger64 both sumBoth origDiff c st =
      .ok { numTrials := st.numTrials + 1,
            numBigger := st.numBigger +
              (if F64.ge (F64.abs (F64.sub
                  (F64.div s1 (F64.ofInt ((both.length : Int) - (c.length : Int))))
                  (F64.div s2 (F64.ofInt (c.length : Int))))) origDiff then 1 else 0) } := by
  unfold countBigger64
  rw [h]
  simp only
  split <;> rfl

/-- The sampled run of `permTest` in binary64 on a constant random stream. -/
theorem permTestCounters64_const (k : Nat) (a b : List F64) (nIter E : Int) (d : Nat)
    (hE : effectiveIter nIter (a ++ b).length = .ok E)
    (hmode : F64.le (binom64 a.length b.length) (F64.ofInt E) = false)
    (hmn : min a.length b.length ≤ (a ++ b).length)
    (hd : ∀ st, countBigger64 (a ++ b) (sum64 (a ++ b))
        (F64.abs (F64.sub (mean64 a) (mean64 b)))
        (floyd (fun _ => k) 0 ((a ++ b).length - min a.length b.length) (min a.length b.length)) st
      = .ok { numTrials := st.numTrials + 1, numBigger := st.numBigger + d }) :
    permTestCounters64 (fun _ => k) a b nIter
      = .ok { numTrials := E.toNat, numBigger := E.toNat * d } := by
  unfold permTestCounters64
  simp only [hE, hmode]
  rw [if_neg (by simp), randTrials_eq _ _ _ _ hmn, trialBuffers_const,
    emitAll_replicate _ _ d hd]
  simp

theorem countBigger64_shift (both : List F64) (sumBoth origDiff : F64) (c : List Nat) (d : Nat)
    (h0 : countBigger64 both sumBoth origDiff c { numTrials := 0, numBigger := 0 }
      = .ok { numTrials := 1, numBigger := d }) (st : Counters) :
    countBigger64 both sumBoth origDiff c st
      = .ok { numTrials := st.numTrials + 1, numBigger := st.numBigger + d } := by
  unfold countBigger64 at h0 ⊢
  cases hs : sumLoop64 both c (sumBoth, F64.ofInt 0) with
  | error e => rw [hs] at h0; cases h0
  | ok p =>
    obtain ⟨s1, s2⟩ := p
    rw [hs] at h0
    simp only at h0 ⊢
    by_cases hc : F64.ge (F64.abs (F64.sub
        (F64.div s1 (F64.ofInt ((both.length : Int) - (c.length : Int))))
        (F64.div s2 (F64.ofInt (c.length : Int))))) origDiff = true
    · rw [if_pos hc] at h0 ⊢
      have hd : d = 1 := by
        injection h0 with h0
        injection h0 with _ h0
        omega
      rw [hd]
    · rw [if_neg hc] at h0 ⊢
      have hd : d = 0 := by
        injection h0 with h0
        injection h0 with _ h0
        omega
      rw [hd]
      rfl

/-! ### Values of the inputs -/

theorem toRat_ofInt_nine : F64.toRat (F64.ofInt 9) = 9 := by
  rw [(by decide : F64.ofInt 9 = .fin 5066549580791808 (-49))]
  norm_num [F64.toRat]

theorem toRat_ofInt_one : F64.toRat (F64.ofInt 1) = 1 := by
  rw [(by decide : F64.ofInt 1 = .fin 4503599627370496 (-52))]
  norm_num [F64.toRat]

theorem toRat_ofInt_four : F64.toRat (F64.ofInt 4) = 4 := by
  rw [(by decide : F64.ofInt 4 = .fin 4503599627370496 (-50))]
  norm_num [F64.toRat]

theorem toRat_ofInt_six : F64.toRat (F64.ofInt 6) = 6 := by
  rw [(by decide : F64.ofInt 6 = .fin 6755399441055744 (-50))]
  norm_num [F64.toRat]

theorem toRat_quarter : F64.toRat (F64.ofRatio 1 4) = 1 / 4 := by
  rw [(by decide : F64.ofRatio 1 4 = .fin 4503599627370496 (-54))]
  norm_num [F64.toRat]

theorem tenths_equal_means :
    (([F64.ofRatio 2 10, F64.ofRatio 6 10].map F64.toRat).sum / 2
      = ([F64.ofRatio 1 10, F64.ofRatio 4 10, F64.ofRatio 7 10].map F64.toRat).sum / 3) := by
  rw [(by decide : F64.ofRatio 2 10 = .fin 7205759403792794 (-55)),
    (by decide : F64.ofRatio 6 10 = .fin 5404319552844595 (-53)),
    (by decide : F64.ofRatio 1 10 = .fin 7205759403792794 (-56)),
    (by decide : F64.ofRatio 4 10 = .fin 7205759403792794 (-54)),
    (by decide : F64.ofRatio 7 10 = .fin 6305039478318694 (-53))]
  norm_num [F64.toRat]

/-! ### Sampled runs at `|a| = 4`, `|b| = 7`, `N = 330 = C(11, 4)` -/

/-- The sampled run on the stream that always returns 0: every trial scores the subset
`{0, 8, 9, 10}`, which is not counted. -/
theorem sampled_zero_stream :
    permTestCounters64 (fun _ => 0) (List.replicate 4 (F64.ofInt 0))
        (List.replicate 7 (F64.ofInt 100)) 330
      = .ok { numTrials := 330, numBigger := 0 } :=
  permTestCounters64_const 0 _ _ 330 330 0 (by decide) (by decide) (by decide)
    (countBigger64_shift _ _ _ _ 0 (by decide))

/-- The sampled run on the stream that always returns 3952, whose draws are 0, 1, 2, 3 in
every trial: every trial scores the subset `{0, 1, 2, 3}`, which is counted. -/
theorem sampled_other_stream :
    permTestCounters64 (fun _ => 3952) (List.replicate 4 (F64.ofInt 0))
        (List.replicate 7 (F64.ofInt 100)) 330
      = .ok { numTrials := 330, numBigger := 330 } :=
  permTestCounters64_const 3952 _ _ 330 330 1 (by decide) (by decide) (by decide)
    (countBigger64_shift _ _ _ _ 1 (by decide))

/-- The sampled run with the groups swapped, on the stream that always returns 3952: every
trial scores the subset `{0, 1, 2, 3}` of the pool `b ++ a`, which is not counted. -/
theorem sampled_other_stream_swapped :
    permTestCounters64 (fun _ => 3952) (List.replicate 7 (F64.ofInt 100))
        (List.replicate 4 (F64.ofInt 0)) 330
      = .ok { numTrials := 330, numBigger := 0 } :=
  permTestCounters64_const 3952 _ _ 330 330 0 (by decide) (by decide) (by decide)
    (countBigger64_shift _ _ _ _ 0 (by decide))

set_option maxHeartbeats 8000000 in
/-- The enumeration that the package comment promises at this input, scored in binary64:
330 trials, of which one is counted. -/
theorem enumeration_at_threshold :
    allCombs 11 4
        (countBigger64 (List.replicate 4 (F64.ofInt 0) ++ List.replicate 7 (F64.ofInt 100))
          (sum64 (List.replicate 4 (F64.ofInt 0) ++ List.replicate 7 (F64.ofInt 100)))
          (F64.abs (F64.sub (mean64 (List.replicate 4 (F64.ofInt 0)))
            (mean64 (List.replicate 7 (F64.ofInt 100))))))
        { numTrials := 0, numBigger := 0 }
      = .ok { numTrials := 330, numBigger := 1 } := by
  decide

/-! ### The runs that contradict the documented behaviour -/

/-- C1, the program at the failing input: for the sorted groups `A = [9]`, `B = [1, 4, 6]` and
`N = 4 = C(4, 1)` the binary64 program runs in exact mode, enumerates the four subsets,
counts one of them and returns 0.25 for every random stream, whereas the brute-force value
on the same numbers, taken in exact arithmetic, is `2/4`: the subset `{1}` ties with the
observed difference `16/3`, and the tie is lost to rounding. -/
theorem permTest64_exact_ne_bruteForce :
    Nat.choose (1 + 3) (min 1 3) ≤ 4 ∧
    (∀ rnd : Nat → Nat,
      permTestCounters64 rnd [F64.ofInt 9] [F64.ofInt 1, F64.ofInt 4, F64.ofInt 6] 4
        = .ok { numTrials := 4, numBigger := 1 }) ∧
    (∀ rnd : Nat → Nat,
      permTest64 rnd [F64.ofInt 9] [F64.ofInt 1, F64.ofInt 4, F64.ofInt 6] 4
        = .ok (F64.ofRatio 1 4)) ∧
    F64.toRat (F64.ofRatio 1 4) = 1 / 4 ∧
    bruteForce ([F64.ofInt 9].map F64.toRat)
      ([F64.ofInt 1, F64.ofInt 4, F64.ofInt 6].map F64.toRat) = 1 / 2 := by
  refine ⟨by decide, fun rnd => ?_, fun rnd => ?_, toRat_quarter, ?_⟩
  · exact (permTestCounters64_exact rnd _ _ 4 4 (by decide) (by decide)).trans (by decide)
  · exact (permTest64_exact rnd _ _ 4 4 (by decide) (by decide)).trans (by decide)
  · simp only [List.map_cons, List.map_nil, toRat_ofInt_nine, toRat_ofInt_one,
      toRat_ofInt_four, toRat_ofInt_six]
    exact bruteForce_nine

/-- C11, the program at the failing inputs.  For the identical multisets `[0.2, 0.6, 0.5]` and
`[0.5, 0.2, 0.6]` with `N = 20 = C(6, 3)` the two binary64 means differ by `2^-54`, the
program counts 16 of the 20 trials and returns 0.8 for every random stream.  For the sorted
groups `[0.2, 0.6]` and `[0.1, 0.4, 0.7]`, whose binary64 values have exactly equal means,
with `N = 10 = C(5, 2)`, it counts 9 of the 10 trials and returns 0.9. -/
theorem permTest64_equal_groups_below_one :
    List.Perm [F64.ofRatio 2 10, F64.ofRatio 6 10, F64.ofRatio 5 10]
      [F64.ofRatio 5 10, F64.ofRatio 2 10, F64.ofRatio 6 10] ∧
    F64.abs (F64.sub (mean64 [F64.ofRatio 2 10, F64.ofRatio 6 10, F64.ofRatio 5 10])
      (mean64 [F64.ofRatio 5 10, F64.ofRatio 2 10, F64.ofRatio 6 10]))
      = .fin 4503599627370496 (-106) ∧
    (∀ rnd : Nat → Nat,
      permTestCounters64 rnd [F64.ofRatio 2 10, F64.ofRatio 6 10, F64.ofRatio 5 10]
        [F64.ofRatio 5 10, F64.ofRatio 2 10, F64.ofRatio 6 10] 20
        = .ok { numTrials := 20, numBigger := 16 }) ∧
    (∀ rnd : Nat → Nat,
      permTest64 rnd [F64.ofRatio 2 10, F64.ofRatio 6 10, F64.ofRatio 5 10]
        [F64.ofRatio 5 10, F64.ofRatio 2 10, F64.ofRatio 6 10] 20
        = .ok (F64.ofRatio 8 10)) ∧
    (([F64.ofRatio 2 10, F64.ofRatio 6 10].map F64.toRat).sum / 2
      = ([F64.ofRatio 1 10, F64.ofRatio 4 10, F64.ofRatio 7 10].map F64.toRat).sum / 3) ∧
    (∀ rnd : Nat → Nat,
      permTestCounters64 rnd [F64.ofRatio 2 10, F64.ofRatio 6 10]
        [F64.ofRatio 1 10, F64.ofRatio 4 10, F64.ofRatio 7 10] 10
        = .ok { numTrials := 10, numBigger := 9 }) ∧
    (∀ rnd : Nat → Nat,
      permTest64 rnd [F64.ofRatio 2 10, F64.ofRatio 6 10]
        [F64.ofRatio 1 10, F64.ofRatio 4 10, F64.ofRatio 7 10] 10
        = .ok (F64.ofRatio 9 10)) ∧
    F64.ofRatio 8 10 ≠ F64.ofInt 1 ∧ F64.ofRatio 9 10 ≠ F64.ofInt 1 := by
  refine ⟨by decide, by decide, fun rnd => ?_, fun rnd => ?_, tenths_equal_means,
    fun rnd => ?_, fun rnd => ?_, by decide, by decide⟩
  · exact (permTestCounters64_exact rnd _ _ 20 20 (by decide) (by decide)).trans (by decide)
  · exact (permTest64_exact rnd _ _ 20 20 (by decide) (by decide)).trans (by decide)
  · exact (permTestCounters64_exact rnd _ _ 10 10 (by decide) (by decide)).trans (by decide)
  · exact (permTest64_exact rnd _ _ 10 10 (by decide) (by decide)).trans (by decide)

/-- C13, the program at the failing input: for the one-element list holding the smallest
positive binary64 number, `2^-1074` (printed `5e-324`), `medianIndices` gives `(0, 0)` and
`median` returns 0, not the element: each product `0.5 * nums[0]` underflows to 0.  The
formula of the comment on `medianIndices`, `(array[x] + array[y]) / 2`, gives the element. -/
theorem median64_underflow :
    medianIndices (([F64.fin 1 (-1074)] : List F64).length : Int) = (0, 0) ∧
    median64 [F64.fin 1 (-1074)] = .ok (F64.ofInt 0) ∧
    F64.fin 1 (-1074) ≠ F64.ofInt 0 ∧
    F64.div (F64.add (F64.fin 1 (-1074)) (F64.fin 1 (-1074))) (F64.ofInt 2)
      = F64.fin 1 (-1074) := by
  refine ⟨by decide, by decide, by decide, by decide⟩

/-- C17, the program at the failing input: for `A` four zeros, `B` seven hundreds and
`N = 330 = C(11, 4)`, the binary64 program reads the random source, and two streams give two
different results: 0 on the stream that always returns 0, and 1 on the stream that always
returns 3952. -/
theorem permTest64_depends_on_draws :
    Nat.choose (4 + 7) (min 4 7) ≤ 330 ∧
    permTest64 (fun _ => 0) (List.replicate 4 (F64.ofInt 0))
      (List.replicate 7 (F64.ofInt 100)) 330 = .ok (F64.ofInt 0) ∧
    permTest64 (fun _ => 3952) (List.replicate 4 (F64.ofInt 0))
      (List.replicate 7 (F64.ofInt 100)) 330 = .ok (F64.ofInt 1) ∧
    F64.ofInt 0 ≠ F64.ofInt 1 := by
  refine ⟨by decide, ?_, ?_, by decide⟩
  · rw [permTest64_of_counters _ _ _ _ _ sampled_zero_stream]
    decide
  · rw [permTest64_of_counters _ _ _ _ _ sampled_other_stream]
    decide

/-- C18, the program at the failing input: `binom(4, 7)` is computed as
`5805421394657281 * 2^-44`, one unit in the last place above `330 = C(11, 4)`, so for groups
of 4 and 7 numbers and `N = 330` the test `nComb <= float64(nIter)` fails and the run is the
loop of 330 calls of `randComb`, for every random stream, not the call of `allCombs`.  The
sampled run counts 0 or 330 of its 330 trials on two constant streams; the enumeration would
count 1 of 330. -/
theorem permTest64_samples_at_threshold :
    Nat.choose (4 + 7) (min 4 7) = 330 ∧
    binom64 4 7 = .fin 5805421394657281 (-44) ∧
    F64.ofInt 330 = .fin 5805421394657280 (-44) ∧
    F64.le (binom64 4 7) (F64.ofInt 330) = false ∧
    (∀ rnd : Nat → Nat,
      permTestCounters64 rnd (List.replicate 4 (F64.ofInt 0))
          (List.replicate 7 (F64.ofInt 100)) 330
        = randTrials rnd 11 4
          (countBigger64 (List.replicate 4 (F64.ofInt 0) ++ List.replicate 7 (F64.ofInt 100))
            (sum64 (List.replicate 4 (F64.ofInt 0) ++ List.replicate 7 (F64.ofInt 100)))
            (F64.abs (F64.sub (mean64 (List.replicate 4 (F64.ofInt 0)))
              (mean64 (List.replicate 7 (F64.ofInt 100))))))
          330 0 { numTrials := 0, numBigger := 0 }) ∧
    permTestCounters64 (fun _ => 0) (List.replicate 4 (F64.ofInt 0))
        (List.replicate 7 (F64.ofInt 100)) 330
      = .ok { numTrials := 330, numBigger := 0 } ∧
    permTestCounters64 (fun _ => 3952) (List.replicate 4 (F64.ofInt 0))
        (List.replicate 7 (F64.ofInt 100)) 330
      = .ok { numTrials := 330, numBigger := 330 } ∧
    allCombs 11 4
        (countBigger64 (List.replicate 4 (F64.ofInt 0) ++ List.replicate 7 (F64.ofInt 100))
          (sum64 (List.replicate 4 (F64.ofInt 0) ++ List.replicate 7 (F64.ofInt 100)))
          (F64.abs (F64.sub (mean64 (List.replicate 4 (F64.ofInt 0)))
            (mean64 (List.replicate 7 (F64.ofInt 100))))))
        { numTrials := 0, numBigger := 0 }
      = .ok { numTrials := 330, numBigger := 1 } := by
  refine ⟨by decide, by decide, by decide, by decide, fun rnd => ?_, sampled_zero_stream,
    sampled_other_stream, enumeration_at_threshold⟩
  exact permTestCounters64_sampled rnd _ _ 330 330 (by decide) (by decide)

/-- C19, the program at the failing inputs.  For the sorted groups `[0.1]` and `[0.2, 0.3]`
with `N = 3 = C(3, 1)` the binary64 program returns `1/3`, and `2/3` with the groups swapped,
for every random stream.  For four zeros and seven hundreds with `N = 330 = C(11, 4)`, on
the stream that always returns 3952, it returns 1, and 0 with the groups swapped. -/
theorem permTest64_swap_differs :
    (∀ rnd : Nat → Nat,
      permTest64 rnd [F64.ofRatio 1 10] [F64.ofRatio 2 10, F64.ofRatio 3 10] 3
        = .ok (F64.ofRatio 1 3)) ∧
    (∀ rnd : Nat → Nat,
      permTest64 rnd [F64.ofRatio 2 10, F64.ofRatio 3 10] [F64.ofRatio 1 10] 3
        = .ok (F64.ofRatio 2 3)) ∧
    F64.ofRatio 1 3 ≠ F64.ofRatio 2 3 ∧
    permTest64 (fun _ => 3952) (List.replicate 4 (F64.ofInt 0))
      (List.replicate 7 (F64.ofInt 100)) 330 = .ok (F64.ofInt 1) ∧
    permTest64 (fun _ => 3952) (List.replicate 7 (F64.ofInt 100))
      (List.replicate 4 (F64.ofInt 0)) 330 = .ok (F64.ofInt 0) := by
  refine ⟨fun rnd => ?_, fun rnd => ?_, by decide, ?_, ?_⟩
  · exact (permTest64_exact rnd _ _ 3 3 (by decide) (by decide)).trans (by decide)
  · exact (permTest64_exact rnd _ _ 3 3 (by decide) (by decide)).trans (by decide)
  · rw [permTest64_of_counters _ _ _ _ _ sampled_other_stream]
    decide
  · rw [permTest64_of_counters _ _ _ _ _ sampled_other_stream_swapped]
    decide

/-- C20, the program at the failing input: for the sorted groups `A = [0.1]`,
`B = [0.8, 1.1]` and `N = 3 = C(3, 1)` the binary64 program runs in exact mode, the trial on
the subset `{0}` that reproduces the original grouping is not counted, no trial is, and the
result is 0 for every random stream. -/
theorem permTest64_exact_mode_zero :
    Nat.choose (1 + 2) (min 1 2) ≤ 3 ∧
    countBigger64 ([F64.ofRatio 1 10] ++ [F64.ofRatio 8 10, F64.ofRatio 11 10])
        (sum64 ([F64.ofRatio 1 10] ++ [F64.ofRatio 8 10, F64.ofRatio 11 10]))
        (F64.abs (F64.sub (mean64 [F64.ofRatio 1 10])
          (mean64 [F64.ofRatio 8 10, F64.ofRatio 11 10])))
        [0] { numTrials := 0, numBigger := 0 }
      = .ok { numTrials := 1, numBigger := 0 } ∧
    (∀ rnd : Nat → Nat,
      permTestCounters64 rnd [F64.ofRatio 1 10] [F64.ofRatio 8 10, F64.ofRatio 11 10] 3
        = .ok { numTrials := 3, numBigger := 0 }) ∧
    (∀ rnd : Nat → Nat,
      permTest64 rnd [F64.ofRatio 1 10] [F64.ofRatio 8 10, F64.ofRatio 11 10] 3
        = .ok (F64.ofInt 0)) := by
  refine ⟨by decide, by decide, fun rnd => ?_, fun rnd => ?_⟩
  · exact (permTestCounters64_exact rnd _ _ 3 3 (by decide) (by decide)).trans (by decide)
  · exact (permTest64_exact rnd _ _ 3 3 (by decide) (by decide)).trans (by decide)

end PermTest
